import Mathlib

set_option maxRecDepth 10000

/-!
Verification development for the Sentra-Agent emotion-analysis service.

This file gives a shallow embedding, in Lean 4, of the parts of the service
relevant to its specification: the NLP Cloud token pool and rate-limit retry
loop (`app/online.py`), the sentiment bucketing of raw label/score pairs
(`app/online.py`), the bounded metrics buffers and percentile query
(`app/main.py`), the minimum-score emotion filter, and the control flow of
the `analyze` and `analyze/batch` HTTP handlers (`app/main.py`).

Python floats are modelled as rationals (`ℚ`), wall-clock times as rationals,
exceptions as `Except`/`Option` values, and the HTTP layer as functions
returning either a response value or a status code.  Collaborators that live
outside the embedded modules (the local model manager, the canonicalizer, the
VAD/stress derivation, the user store) are passed in as explicit function
parameters, so theorems can quantify over their behaviour.
-/

/-! ## String helpers (Python `in`, `str.lower`) -/

/-- Whether the second list is a prefix of the first (Python-style startswith). -/
def listStartsWith : List Char → List Char → Bool
  | _, [] => true
  | [], _ :: _ => false
  | a :: as, b :: bs => a == b && listStartsWith as bs

/-- Whether `needle` occurs as a contiguous sublist of `hay`
(Python `needle in hay` on strings). -/
def listHasSub : List Char → List Char → Bool
  | [], needle => needle.isEmpty
  | h :: t, needle => listStartsWith (h :: t) needle || listHasSub t needle

/-- Python `needle in hay` for strings. -/
def strContains (hay needle : String) : Bool :=
  listHasSub hay.data needle.data

/-- Python `str.lower()` (ASCII-level model). -/
def pyLower (s : String) : String :=
  ⟨s.data.map Char.toLower⟩

/-- Python `str.strip()`: drop leading and trailing whitespace (written over
the character list so that it evaluates by kernel reduction, which
`String.trim` does not). -/
def pyStrip (s : String) : String :=
  ⟨((s.data.dropWhile Char.isWhitespace).reverse.dropWhile Char.isWhitespace).reverse⟩

/-- Python `max(a, b)` on numbers, written with an explicit test so that it
evaluates by kernel reduction (the lattice `max` on `ℚ` does not). -/
def pyMax (a b : ℚ) : ℚ := if a ≤ b then b else a

/-- Python `max(a, b)` on machine integers. -/
def pyMaxI (a b : Int) : Int := if a ≤ b then b else a

/-- Python `min(a, b)` on machine integers. -/
def pyMinI (a b : Int) : Int := if a ≤ b then a else b

/-! ## Token pool (`app/online.py`: module state, `_pick_token`,
`_mark_token_rate_limited`) -/

/-- The module-level token-pool state of `app/online.py`:
`_token_tokens`, `_token_cooldowns` (epoch seconds until which each token is
paused), `_token_index` (round-robin cursor), `_token_cooldown_sec`. -/
structure TokenPool where
  tokens : List String
  cooldowns : List ℚ
  index : Nat
  cooldownSec : ℚ
deriving DecidableEq

/-- The two failure modes of `_pick_token`: the `RuntimeError` for an empty
pool and the `RuntimeError` raised when all tokens are cooling down. -/
inductive PickErr where
  | emptyPool
  | exhausted
deriving DecidableEq

/-- The scan loop of `_pick_token`: `for i in range(n): idx = (start + i) % n;
if cooldowns[idx] <= now: return idx`.  `fuel` is the number of remaining
iterations; `start` accumulates `start + i`. -/
def scanTokens (cooldowns : List ℚ) (now : ℚ) (n : Nat) : Nat → Nat → Option Nat
  | _, 0 => none
  | start, fuel + 1 =>
    let idx := start % n
    if cooldowns.getD idx 0 ≤ now then some idx
    else scanTokens cooldowns now n (start + 1) fuel

/-- `_pick_token` (app/online.py lines 127-147): returns the next available
token scanning round-robin from the cursor, advances the cursor past it, and
fails when the pool is empty or every token is cooling down. -/
def pickToken (p : TokenPool) (now : ℚ) : Except PickErr (String × Nat × TokenPool) :=
  let n := p.tokens.length
  if n = 0 then .error .emptyPool
  else
    match scanTokens p.cooldowns now n p.index n with
    | some idx => .ok (p.tokens.getD idx "", idx, { p with index := (idx + 1) % n })
    | none => .error .exhausted

/-- `_mark_token_rate_limited` (app/online.py lines 150-164): puts a token
into its cooldown window, `cooldowns[index] = max(prev, now + max(0, cooldown_sec))`;
out-of-range indices are ignored. -/
def markTokenRateLimited (p : TokenPool) (index : Nat) (now : ℚ) : TokenPool :=
  if index < p.cooldowns.length then
    let untl := now + pyMax 0 p.cooldownSec
    let prev := p.cooldowns.getD index 0
    { p with cooldowns := p.cooldowns.set index (pyMax prev untl) }
  else p

/-! ## External call with token rotation (`app/online.py`:
`_is_rate_limit_error`, `_call_sentiment_api`) -/

/-- An exception coming back from the provider client: its string form and the
optional `response.status_code` attribute inspected by `_is_rate_limit_error`. -/
structure ApiError where
  msg : String
  respStatus : Option Int
deriving DecidableEq

/-- `_is_rate_limit_error` (app/online.py lines 167-182). -/
def isRateLimitError (e : ApiError) : Bool :=
  if strContains e.msg "429" && strContains e.msg "Too Many Requests" then true
  else if strContains e.msg "Rate limit" || strContains e.msg "maximum number of requests per minute" then true
  else
    match e.respStatus with
    | some c => c == 429
    | none => false

/-- Outcome of one physical `client.sentiment(text)` call: a response
(abstracted to a `Nat` handle) or a raised exception. -/
inductive ApiOutcome where
  | success : Nat → ApiOutcome
  | fail : ApiError → ApiOutcome
deriving DecidableEq

/-- The errors `_call_sentiment_api` can raise: a `_pick_token` failure, a
provider exception, the missing-model / empty-text guards, and the final
"no available tokens" `RuntimeError`. -/
inductive CallErr where
  | pickErr : PickErr → CallErr
  | apiFail : ApiError → CallErr
  | noModel
  | emptyText
  | noTokens
deriving DecidableEq

/-- What a logical `_call_sentiment_api` call does: return a response or raise. -/
inductive CallResultM where
  | ok : Nat → CallResultM
  | raised : CallErr → CallResultM
deriving DecidableEq

/-- Result of a logical `_call_sentiment_api` call, instrumented with the list
of token indices actually tried (in order), so that theorems can speak about
how many times each token was used. -/
structure CallOut where
  result : CallResultM
  tried : List Nat
deriving DecidableEq

/-- The retry loop of `_call_sentiment_api` (app/online.py lines 203-231).
`behave attempt idx` is the outcome of calling the provider on attempt number
`attempt` with token index `idx`; `tms attempt` / `tmk attempt` are the clock
readings taken by `_pick_token` / `_mark_token_rate_limited` on that attempt;
`fuel` is the remaining loop iterations and `last` the accumulated
`last_error`. -/
def callAux (behave : Nat → Nat → ApiOutcome) (tms tmk : Nat → ℚ) :
    TokenPool → Nat → Nat → Option CallErr → CallOut
  | _, _, 0, last =>
    match last with
    | some e => ⟨.raised e, []⟩
    | none => ⟨.raised .noTokens, []⟩
  | p, attempt, fuel + 1, _last =>
    match pickToken p (tms attempt) with
    | .error pe => ⟨.raised (.pickErr pe), []⟩
    | .ok (_tok, idx, p2) =>
      match behave attempt idx with
      | .success r => ⟨.ok r, [idx]⟩
      | .fail e =>
        if isRateLimitError e then
          let rest := callAux behave tms tmk
            (markTokenRateLimited p2 idx (tmk attempt)) (attempt + 1) fuel
            (some (.apiFail e))
          ⟨rest.result, idx :: rest.tried⟩
        else ⟨.raised (.apiFail e), [idx]⟩

/-- `_call_sentiment_api` (app/online.py lines 185-231): guards on model and
text, then tries tokens with `n_tokens = max(1, len(tokens))` attempts. -/
def callSentimentApi (model text : String) (p : TokenPool)
    (behave : Nat → Nat → ApiOutcome) (tms tmk : Nat → ℚ) : CallOut :=
  if model = "" then ⟨.raised .noModel, []⟩
  else if text = "" then ⟨.raised .emptyText, []⟩
  else callAux behave tms tmk p 0 (max 1 p.tokens.length) none

/-! ## Sentiment bucketing (`app/online.py`: `_derive_sentiment_from_pairs`) -/

/-- The `positive_emotions` vocabulary of `_derive_sentiment_from_pairs`. -/
def positiveEmotions : List String :=
  ["love", "joy", "amusement", "optimism", "gratitude", "admiration",
   "excitement", "desire", "pride", "relief", "happiness", "caring", "approval"]

/-- The `negative_emotions` vocabulary of `_derive_sentiment_from_pairs`. -/
def negativeEmotions : List String :=
  ["anger", "fear", "sadness", "disgust", "contempt", "disappointment",
   "remorse", "guilt", "embarrassment", "grief", "nervousness", "confusion",
   "disapproval"]

/-- The `neutral_emotions` vocabulary of `_derive_sentiment_from_pairs`. -/
def neutralEmotions : List String := ["surprise", "curiosity", "neutral"]

/-- The bucket key chosen for one raw label in `_derive_sentiment_from_pairs`
(app/online.py lines 242-297): direct sentiment-word substring checks on the
lowercased, stripped label, then the fixed emotion vocabularies, and finally
the original label as its own key. -/
def bucketKey (lbl : String) : String :=
  let l := pyStrip (pyLower lbl)
  if strContains l "pos" || strContains l "positive" then "positive"
  else if strContains l "neg" || strContains l "negative" then "negative"
  else if strContains l "neu" || strContains l "neutral" then "neutral"
  else if positiveEmotions.contains l then "positive"
  else if negativeEmotions.contains l then "negative"
  else if neutralEmotions.contains l then "neutral"
  else lbl

/-- Whether a raw label matches a direct sentiment word or a known emotion name
(the condition under which `_derive_sentiment_from_pairs` assigns one of the
three sentiment buckets instead of passing the label through). -/
def labelMatched (lbl : String) : Bool :=
  let l := pyStrip (pyLower lbl)
  strContains l "pos" || strContains l "positive" ||
  strContains l "neg" || strContains l "negative" ||
  strContains l "neu" || strContains l "neutral" ||
  positiveEmotions.contains l || negativeEmotions.contains l ||
  neutralEmotions.contains l

/-- The score clamp of `_derive_sentiment_from_pairs`: negative scores become 0. -/
def clampScore (s : ℚ) : ℚ := if s < 0 then 0 else s

/-- `tmp[key] = tmp.get(key, 0.0) + score` on an insertion-ordered dict,
modelled as an association list: an existing key keeps its position, a new key
is appended at the end. -/
def updAssoc : List (String × ℚ) → String → ℚ → List (String × ℚ)
  | [], k, v => [(k, v)]
  | (k2, v2) :: rest, k, v =>
    if k2 = k then (k2, v2 + v) :: rest else (k2, v2) :: updAssoc rest k v

/-- The accumulation loop of `_derive_sentiment_from_pairs`: fold every raw
pair into the bucket dict, clamping negative scores to zero. -/
def buildBuckets : List (String × ℚ) → List (String × ℚ) → List (String × ℚ)
  | acc, [] => acc
  | acc, (lbl, s) :: rest => buildBuckets (updAssoc acc (bucketKey lbl) (clampScore s)) rest

/-- Python `max(items, key=lambda x: x[1])` over a nonempty list: keeps the
current best and replaces it only on a strictly larger score, so the first
maximal element wins ties. -/
def pyMaxBySnd (best : String × ℚ) : List (String × ℚ) → String × ℚ
  | [] => best
  | x :: rest => if best.2 < x.2 then pyMaxBySnd x rest else pyMaxBySnd best rest

/-- The divisor used by `_derive_sentiment_from_pairs`:
`total = sum(tmp.values()) or 1.0` expressed over the raw pairs (the bucket
values sum to the clamped raw scores). -/
def pyTotal (pairs : List (String × ℚ)) : ℚ :=
  let t := (pairs.map (fun x => clampScore x.2)).sum
  if t = 0 then 1 else t

/-- `_derive_sentiment_from_pairs` (app/online.py lines 234-313): bucket the
raw pairs, replace an empty dict by `neutral = 1.0`, divide by
`sum(...) or 1.0`, and return the first bucket of maximal score together with
the score distribution. -/
def deriveSentimentFromPairs (pairs : List (String × ℚ)) : String × List (String × ℚ) :=
  let tmp0 := buildBuckets [] pairs
  let tmp := if tmp0.isEmpty then [("neutral", (1 : ℚ))] else tmp0
  let t := (tmp.map (fun x => x.2)).sum
  let total := if t = 0 then 1 else t
  let scores := tmp.map (fun x => (x.1, x.2 / total))
  match scores with
  | [] => ("neutral", scores)
  | x :: rest => ((pyMaxBySnd x rest).1, scores)

/-- The score distribution produced by `_derive_sentiment_from_pairs` (the
second component of its result), written out separately for reasoning. -/
def deriveScores (pairs : List (String × ℚ)) : List (String × ℚ) :=
  let tmp0 := buildBuckets [] pairs
  let tmp := if tmp0.isEmpty then [("neutral", (1 : ℚ))] else tmp0
  let t := (tmp.map (fun x => x.2)).sum
  let total := if t = 0 then 1 else t
  tmp.map (fun x => (x.1, x.2 / total))

/-- First-occurrence deduplication with an explicit list of already-seen keys
(used to state which bucket keys `_derive_sentiment_from_pairs` produces, in
first-encountered order). -/
def firstDedupAux (seen : List String) : List String → List String
  | [] => []
  | x :: rest =>
    if seen.contains x then firstDedupAux seen rest
    else x :: firstDedupAux (x :: seen) rest

/-- Keys of a list in order of first occurrence. -/
def firstDedup (l : List String) : List String := firstDedupAux [] l

/-- Value at a key in an association list, defaulting to 0
(Python `dict.get(key, 0.0)`). -/
def assocGetD (m : List (String × ℚ)) (k : String) : ℚ :=
  match m with
  | [] => 0
  | (k2, v) :: rest => if k2 = k then v else assocGetD rest k

/-! ## Metrics buffers and percentile (`app/main.py`:
`_record_latency_ms`, `_record_emotion_top1`, `_percentile`) -/

/-- `_record_latency_ms` (app/main.py lines 29-35) acting on the
`inference_latencies_ms` buffer: append, then
`del buf[:len(buf) - 1000]` whenever the length exceeds 2000. -/
def recordLatencyMs (buf : List ℚ) (ms : ℚ) : List ℚ :=
  let b := buf ++ [ms]
  if 2000 < b.length then b.drop (b.length - 1000) else b

/-- `_record_emotion_top1` (app/main.py lines 48-53) acting on the parallel
`emotion_top1_scores` / `emotion_top1_times` buffers. -/
def recordEmotionTop1 (scores times : List ℚ) (score t : ℚ) : List ℚ × List ℚ :=
  let s := scores ++ [score]
  let tl := times ++ [t]
  if 2000 < s.length then (s.drop (s.length - 1000), tl.drop (tl.length - 1000))
  else (s, tl)

/-- Python `int()` on a rational: truncation toward zero. -/
def pyTrunc (x : ℚ) : Int :=
  if 0 ≤ x then ⌊x⌋ else -⌊-x⌋

/-- `_percentile` (app/main.py lines 38-45): `None` on an empty list, otherwise
sort and index with `idx = int(q * (n - 1))` clamped into `[0, n - 1]`. -/
def percentileFn (values : List ℚ) (q : ℚ) : Option ℚ :=
  if values = [] then none
  else
    let s := List.insertionSort (· ≤ ·) values
    let n := s.length
    let idx : Int := pyTrunc (q * ((n : ℚ) - 1))
    let idx2 : Int := pyMaxI 0 (pyMinI idx ((n : Int) - 1))
    some (s.getD idx2.toNat 0)

/-! ## Minimum-score filter and analyze handlers (`app/main.py`) -/

/-- Modelled from the spec: `normalize_distribution` lives in
`app/analysis.py`, which is not part of the provided sources; per the spec
(§3, §8) normalization makes scores non-negative and sum to 1.0, and an empty
(or zero-mass) distribution is replaced by the single entry `neutral = 1.0`. -/
def normalize_distribution (pairs : List (String × ℚ)) : List (String × ℚ) :=
  let cl := pairs.map (fun kv => (kv.1, clampScore kv.2))
  let total := (cl.map (fun kv => kv.2)).sum
  if total = 0 then [("neutral", (1 : ℚ))]
  else cl.map (fun kv => (kv.1, kv.2 / total))

/-- The minimum-score filter step of `analyze` / `analyze_batch`
(app/main.py lines 228-235 and 372-377): when the configured threshold is
positive, keep pairs with score at least the threshold, and only when
something survives replace the distribution by its renormalization. -/
def applyMinScoreFilter (minScore : ℚ) (canonPairs : List (String × ℚ)) :
    List (String × ℚ) :=
  if 0 < minScore then
    let filtered := canonPairs.filter (fun kv => minScore ≤ kv.2)
    if filtered.isEmpty then canonPairs
    else normalize_distribution filtered
  else canonPairs

/-- The sentiment dict produced by a backend (`label`, `scores`, `raw_model`). -/
structure SentimentDict where
  label : String
  scores : List (String × ℚ)
  rawModel : String
deriving DecidableEq

/-- The response assembled by `analyze` / `analyze_batch`
(app/main.py lines 264-275): sentiment, emotion pairs, VAD, PAD, stress and
the optional per-user state (of abstract type `υ`). -/
structure AnalyzeResponse (υ : Type) where
  sentiment : SentimentDict
  emotions : List (String × ℚ)
  vad : ℚ × ℚ × ℚ
  pad : ℚ × ℚ × ℚ
  stress : ℚ × String
  user : Option υ
deriving DecidableEq

/-- The collaborators used by the `analyze` handlers, abstracted as functions:
the selected backend (sentiment dict plus raw emotion pairs, or a raised
error), the alias flag and canonicalizer, the configured minimum score, the
VAD and stress derivations from `app/analysis.py`, and the user store update
(arguments: userid, username, text, sentiment label, vad, stress, emotions). -/
structure AnalyzeDeps (υ : Type) where
  getBackend : String → Except String (SentimentDict × List (String × ℚ))
  useAlias : Bool
  canonicalize : List (String × ℚ) → List (String × ℚ)
  minScore : ℚ
  vadOf : List (String × ℚ) → ℚ × ℚ × ℚ
  stressOf : ℚ → ℚ → List (String × ℚ) → ℚ × String
  updateUser : String → Option String → String → String → (ℚ × ℚ × ℚ) →
    (ℚ × String) → List (String × ℚ) → Except String υ

/-- The per-text body shared by `analyze` (app/main.py lines 186-275) and the
`analyze_batch` loop (lines 350-430): run the backend (any raised error maps
to HTTP 500 by the surrounding `except`), canonicalize, apply the minimum-score
filter, derive VAD/PAD/stress, and do the best-effort user-store update whose
failure only clears the `user` field. -/
def analyzeCore {υ : Type} (deps : AnalyzeDeps υ) (text : String)
    (userid username : Option String) : Except Nat (AnalyzeResponse υ) :=
  match deps.getBackend text with
  | .error _ => .error 500
  | .ok (sentiment, emotionsPairs) =>
    let canon0 := if deps.useAlias then deps.canonicalize emotionsPairs else emotionsPairs
    let canon := applyMinScoreFilter deps.minScore canon0
    let vad := deps.vadOf canon
    let st := deps.stressOf vad.1 vad.2.1 canon
    let uid := pyStrip (userid.getD "")
    let uname := pyStrip (username.getD "")
    let userState : Option υ :=
      if uid = "" then none
      else
        match deps.updateUser uid (if uname = "" then none else some uname)
            text sentiment.label vad st canon with
        | .ok u => some u
        | .error _ => none
    .ok ⟨sentiment, canon, vad, vad, st, userState⟩

/-- `analyze` (app/main.py lines 179-307): strip the text, reject blank input
with HTTP 400, then run the per-text body. -/
def analyzeHandler {υ : Type} (deps : AnalyzeDeps υ) (text : Option String)
    (userid username : Option String) : Except Nat (AnalyzeResponse υ) :=
  let t := pyStrip (text.getD "")
  if t = "" then .error 400
  else analyzeCore deps t userid username

/-- The sequential loop of `analyze_batch` over the retained texts: a failing
item raises HTTP 500 for the whole batch. -/
def batchGo {υ : Type} (deps : AnalyzeDeps υ) (userid username : Option String) :
    List String → Except Nat (List (AnalyzeResponse υ))
  | [] => .ok []
  | t :: rest =>
    match analyzeCore deps t userid username with
    | .error c => .error c
    | .ok r =>
      match batchGo deps userid username rest with
      | .error c => .error c
      | .ok rs => .ok (r :: rs)

/-- `analyze_batch` (app/main.py lines 310-438): strip every entry, drop the
blank ones, reject with HTTP 400 when nothing remains, then process the
retained texts in order. -/
def analyzeBatchHandler {υ : Type} (deps : AnalyzeDeps υ) (texts : List (Option String))
    (userid username : Option String) : Except Nat (List (AnalyzeResponse υ)) :=
  let ts := (texts.map (fun t => pyStrip (t.getD ""))).filter (fun t => t ≠ "")
  if ts = [] then .error 400
  else batchGo deps userid username ts

/-! ## Lemmas about the token-pool scan -/

theorem pyMax_eq (a b : ℚ) : pyMax a b = max a b := by
  rw [pyMax, max_def]

theorem pyMaxI_eq (a b : Int) : pyMaxI a b = max a b := by
  rw [pyMaxI, max_def]

theorem pyMinI_eq (a b : Int) : pyMinI a b = min a b := by
  rw [pyMinI, min_def]

theorem scanTokens_some (c : List ℚ) (now : ℚ) (n : Nat) :
    ∀ (f s idx : Nat), scanTokens c now n s f = some idx →
      ∃ i, i < f ∧ idx = (s + i) % n ∧ c.getD idx 0 ≤ now ∧
        ∀ j, j < i → now < c.getD ((s + j) % n) 0 := by
  intro f
  induction f with
  | zero => intro s idx h; simp [scanTokens] at h
  | succ f ih =>
    intro s idx h
    simp only [scanTokens] at h
    by_cases hc : c.getD (s % n) 0 ≤ now
    · rw [if_pos hc] at h
      injection h with h2
      subst h2
      exact ⟨0, by omega, by simp, hc, by omega⟩
    · rw [if_neg hc] at h
      obtain ⟨i, hif, hidx, hle, hall⟩ := ih (s + 1) idx h
      refine ⟨i + 1, by omega, ?_, hle, ?_⟩
      · rw [hidx, show s + 1 + i = s + (i + 1) by omega]
      · intro j hj
        cases j with
        | zero => simpa using lt_of_not_le hc
        | succ j2 =>
          have := hall j2 (by omega)
          rwa [show s + 1 + j2 = s + (j2 + 1) by omega] at this

theorem scanTokens_none_iff (c : List ℚ) (now : ℚ) (n : Nat) :
    ∀ (f s : Nat), scanTokens c now n s f = none ↔
      ∀ i, i < f → now < c.getD ((s + i) % n) 0 := by
  intro f
  induction f with
  | zero => intro s; simp [scanTokens]
  | succ f ih =>
    intro s
    simp only [scanTokens]
    by_cases hc : c.getD (s % n) 0 ≤ now
    · rw [if_pos hc]
      constructor
      · intro h; exact absurd h (by simp)
      · intro h
        have := h 0 (by omega)
        simp only [Nat.add_zero] at this
        exact absurd hc (not_le.mpr this)
    · rw [if_neg hc]
      rw [ih (s + 1)]
      constructor
      · intro h i hi
        cases i with
        | zero => simpa using lt_of_not_le hc
        | succ i2 =>
          have := h i2 (by omega)
          rwa [show s + 1 + i2 = s + (i2 + 1) by omega] at this
      · intro h i hi
        have := h (i + 1) (by omega)
        rwa [show s + (i + 1) = s + 1 + i by omega] at this

theorem mod_shift_surj (n s j : Nat) (hj : j < n) :
    ∃ i, i < n ∧ (s + i) % n = j := by
  refine ⟨(n - s % n + j) % n, Nat.mod_lt _ (by omega), ?_⟩
  have h1 : s % n < n := Nat.mod_lt s (by omega)
  have h2 : s % n ≤ s := Nat.mod_le s n
  rw [Nat.add_mod_mod]
  rw [show s + (n - s % n + j) = (s - s % n) + j + n by omega]
  rw [Nat.add_mod_right]
  rw [show s - s % n = n * (s / n) by
    have := Nat.div_add_mod s n
    omega]
  rw [Nat.mul_add_mod]
  exact Nat.mod_eq_of_lt hj

/-- Inversion of a successful `_pick_token`: the returned index is in range and
not cooling, the returned token is the one at that index, the cursor advances
just past it, the cooldown array is untouched, and every round-robin
predecessor (scanning from the cursor) was cooling. -/
theorem pickToken_ok (p : TokenPool) (now : ℚ) (tok : String) (idx : Nat) (p2 : TokenPool)
    (h : pickToken p now = .ok (tok, idx, p2)) :
    idx < p.tokens.length ∧ p.cooldowns.getD idx 0 ≤ now ∧
    tok = p.tokens.getD idx "" ∧
    p2.tokens = p.tokens ∧ p2.cooldowns = p.cooldowns ∧ p2.cooldownSec = p.cooldownSec ∧
    p2.index = (idx + 1) % p.tokens.length ∧
    ∃ i, i < p.tokens.length ∧ idx = (p.index + i) % p.tokens.length ∧
      ∀ j, j < i → now < p.cooldowns.getD ((p.index + j) % p.tokens.length) 0 := by
  simp only [pickToken] at h
  by_cases hn : p.tokens.length = 0
  · rw [if_pos hn] at h; exact absurd h (by simp)
  · rw [if_neg hn] at h
    cases hscan : scanTokens p.cooldowns now p.tokens.length p.index p.tokens.length with
    | none => rw [hscan] at h; exact absurd h (by simp)
    | some idx2 =>
      rw [hscan] at h
      injection h with h2
      simp only [Prod.mk.injEq] at h2
      obtain ⟨he1, he3, he4⟩ := h2
      subst he3
      subst he4
      obtain ⟨i, hif, hidx, hle, hall⟩ := scanTokens_some _ _ _ _ _ _ hscan
      have hlt : idx2 < p.tokens.length := by
        rw [hidx]; exact Nat.mod_lt _ (by omega)
      exact ⟨hlt, hle, he1.symm, rfl, rfl, rfl, rfl, i, hif, hidx, hall⟩

/-- `_pick_token` raises its all-cooling `RuntimeError` exactly when the pool
is nonempty and every token's cooldown lies strictly in the future. -/
theorem pickToken_exhausted_iff (p : TokenPool) (now : ℚ) :
    pickToken p now = .error .exhausted ↔
      (p.tokens.length ≠ 0 ∧ ∀ j, j < p.tokens.length → now < p.cooldowns.getD j 0) := by
  simp only [pickToken]
  by_cases hn : p.tokens.length = 0
  · rw [if_pos hn]
    simp [hn]
  · rw [if_neg hn]
    cases hscan : scanTokens p.cooldowns now p.tokens.length p.index p.tokens.length with
    | some idx =>
      simp only [hscan]
      constructor
      · intro h; exact absurd h (by simp)
      · intro ⟨_, hall⟩
        obtain ⟨i, hif, hidx, hle, _⟩ := scanTokens_some _ _ _ _ _ _ hscan
        have hlt : idx < p.tokens.length := by
          rw [hidx]; exact Nat.mod_lt _ (by omega)
        exact absurd hle (not_le.mpr (hall idx hlt))
    | none =>
      simp only [hscan]
      constructor
      · intro _
        refine ⟨hn, fun j hj => ?_⟩
        obtain ⟨i, hin, hmod⟩ := mod_shift_surj p.tokens.length p.index j hj
        have := (scanTokens_none_iff _ _ _ _ _).mp hscan i hin
        rwa [hmod] at this
      · intro _; trivial

/-- `_mark_token_rate_limited` touches only the cooldown array. -/
theorem mark_fields (p : TokenPool) (i : Nat) (now : ℚ) :
    (markTokenRateLimited p i now).tokens = p.tokens ∧
    (markTokenRateLimited p i now).index = p.index ∧
    (markTokenRateLimited p i now).cooldownSec = p.cooldownSec ∧
    (markTokenRateLimited p i now).cooldowns.length = p.cooldowns.length := by
  unfold markTokenRateLimited
  by_cases h : i < p.cooldowns.length
  · rw [if_pos h]; exact ⟨rfl, rfl, rfl, List.length_set ..⟩
  · rw [if_neg h]; exact ⟨rfl, rfl, rfl, rfl⟩

/-- After `_mark_token_rate_limited`, the marked token's cooldown is at least
`now + max 0 cooldown_sec` (when the index is in range). -/
theorem mark_getD_self (p : TokenPool) (i : Nat) (now : ℚ) (h : i < p.cooldowns.length) :
    (markTokenRateLimited p i now).cooldowns.getD i 0 =
      max (p.cooldowns.getD i 0) (now + max 0 p.cooldownSec) := by
  unfold markTokenRateLimited
  rw [if_pos h]
  simp only [List.getD_eq_getElem?_getD, List.getElem?_set_self, h, Option.getD_some]
  rw [pyMax_eq, pyMax_eq]

/-- `_mark_token_rate_limited` leaves every other token's cooldown unchanged. -/
theorem mark_getD_other (p : TokenPool) (i j : Nat) (now : ℚ) (h : j ≠ i) :
    (markTokenRateLimited p i now).cooldowns.getD j 0 = p.cooldowns.getD j 0 := by
  unfold markTokenRateLimited
  by_cases hlen : i < p.cooldowns.length
  · rw [if_pos hlen]
    simp [List.getD_eq_getElem?_getD, List.getElem?_set_ne (by omega : i ≠ j)]
  · rw [if_neg hlen]

/-- Marking a token never shrinks any cooldown (`max(prev, new)` discipline). -/
theorem mark_getD_mono (p : TokenPool) (i j : Nat) (now : ℚ) :
    p.cooldowns.getD j 0 ≤ (markTokenRateLimited p i now).cooldowns.getD j 0 := by
  by_cases hj : j = i
  · subst hj
    by_cases hlen : j < p.cooldowns.length
    · rw [mark_getD_self p j now hlen]; exact le_max_left _ _
    · unfold markTokenRateLimited; rw [if_neg hlen]
  · rw [mark_getD_other p i j now hj]

/-- C1: for every pool and every current time, `_pick_token` returns the next
token scanning round-robin from the last cursor position, skipping every token
whose cooldown lies in the future (the returned index is the first available
one in cursor order, its token string is returned, and the cursor moves past
it); it fails with the pool-exhausted error exactly when the pool is nonempty
and every token is currently cooling down; and a token marked rate-limited is
never returned again while its cooldown has not elapsed. -/
theorem C1_pick_token_round_robin (p : TokenPool) (now : ℚ) :
    (∀ tok idx p2, pickToken p now = .ok (tok, idx, p2) →
      idx < p.tokens.length ∧ p.cooldowns.getD idx 0 ≤ now ∧
      tok = p.tokens.getD idx "" ∧ p2.cooldowns = p.cooldowns ∧
      p2.index = (idx + 1) % p.tokens.length ∧
      ∃ i, i < p.tokens.length ∧ idx = (p.index + i) % p.tokens.length ∧
        ∀ j, j < i → now < p.cooldowns.getD ((p.index + j) % p.tokens.length) 0) ∧
    (pickToken p now = .error .exhausted ↔
      p.tokens.length ≠ 0 ∧ ∀ j, j < p.tokens.length → now < p.cooldowns.getD j 0) ∧
    (∀ i t1 t2, t2 < (markTokenRateLimited p i t1).cooldowns.getD i 0 →
      ∀ tok q, pickToken (markTokenRateLimited p i t1) t2 ≠ .ok (tok, i, q)) := by
  refine ⟨?_, pickToken_exhausted_iff p now, ?_⟩
  · intro tok idx p2 h
    obtain ⟨h1, h2, h3, _, h5, _, h7, h8⟩ := pickToken_ok p now tok idx p2 h
    exact ⟨h1, h2, h3, h5, h7, h8⟩
  · intro i t1 t2 hcool tok q h
    obtain ⟨_, h2, _⟩ := pickToken_ok _ t2 tok i q h
    exact absurd h2 (not_le.mpr hcool)

/-- Witness for C1 at a concrete pool: with both tokens cooling until times 7
and 9, a pick at time 5 raises the pool-exhausted error. -/
theorem C1_pick_token_round_robin_witness :
    pickToken ⟨["a", "b"], [7, 9], 0, 60⟩ 5 = .error .exhausted :=
  (C1_pick_token_round_robin ⟨["a", "b"], [7, 9], 0, 60⟩ 5).2.1.mpr
    ⟨by decide, by decide⟩

/-! ## Lemmas about the `_call_sentiment_api` retry loop -/

/-- The number of attempts is bounded by the loop fuel. -/
theorem callAux_tried_length (behave : Nat → Nat → ApiOutcome) (tms tmk : Nat → ℚ) :
    ∀ (f : Nat) (p : TokenPool) (a : Nat) (last : Option CallErr),
      (callAux behave tms tmk p a f last).tried.length ≤ f := by
  intro f
  induction f with
  | zero => intro p a last; cases last <;> simp [callAux]
  | succ f ih =>
    intro p a last
    simp only [callAux]
    split
    · simp
    · rename_i tok idx p2 heq
      split
      · simp
      · rename_i e hb
        split
        · rename_i hrl
          have := ih (markTokenRateLimited p2 idx (tmk a)) (a + 1) (some (.apiFail e))
          simpa using Nat.succ_le_succ this
        · simp

/-- Every attempted token index is a valid index into the pool. -/
theorem callAux_tried_lt (behave : Nat → Nat → ApiOutcome) (tms tmk : Nat → ℚ) :
    ∀ (f : Nat) (p : TokenPool) (a : Nat) (last : Option CallErr) (i : Nat),
      i ∈ (callAux behave tms tmk p a f last).tried → i < p.tokens.length := by
  intro f
  induction f with
  | zero => intro p a last i hi; cases last <;> simp [callAux] at hi
  | succ f ih =>
    intro p a last i hi
    simp only [callAux] at hi
    split at hi
    · simp at hi
    · rename_i tok idx p2 hpick
      obtain ⟨hidx, _, _, htok, _, _, _, _⟩ := pickToken_ok p (tms a) tok idx p2 hpick
      split at hi
      · simp at hi; omega
      · rename_i e hb
        split at hi
        · rename_i hrl
          simp only [List.mem_cons] at hi
          cases hi with
          | inl h => omega
          | inr h =>
            have := ih (markTokenRateLimited p2 idx (tmk a)) (a + 1)
              (some (.apiFail e)) i h
            rwa [(mark_fields p2 idx (tmk a)).1, htok] at this
        · simp at hi; omega

/-- If a token's cooldown lies beyond every clock reading the loop will take,
that token is never attempted. -/
theorem callAux_not_tried (behave : Nat → Nat → ApiOutcome) (tms tmk : Nat → ℚ) :
    ∀ (f : Nat) (p : TokenPool) (a : Nat) (last : Option CallErr) (i : Nat),
      (∀ b, a ≤ b → tms b < p.cooldowns.getD i 0) →
      i ∉ (callAux behave tms tmk p a f last).tried := by
  intro f
  induction f with
  | zero => intro p a last i hcool hi; cases last <;> simp [callAux] at hi
  | succ f ih =>
    intro p a last i hcool hi
    simp only [callAux] at hi
    split at hi
    · simp at hi
    · rename_i tok idx p2 hpick
      obtain ⟨hidx, hle, _, htok, hcoolp, hsec, _, _⟩ :=
        pickToken_ok p (tms a) tok idx p2 hpick
      have hne : idx ≠ i := by
        intro hEq
        subst hEq
        exact absurd hle (not_le.mpr (hcool a le_rfl))
      split at hi
      · simp at hi; exact hne hi.symm
      · rename_i e hb
        split at hi
        · rename_i hrl
          simp only [List.mem_cons] at hi
          cases hi with
          | inl h => exact hne h.symm
          | inr h =>
            refine absurd h (ih (markTokenRateLimited p2 idx (tmk a)) (a + 1)
              (some (.apiFail e)) i ?_)
            intro b hab
            calc tms b < p.cooldowns.getD i 0 := hcool b (by omega)
              _ = p2.cooldowns.getD i 0 := by rw [hcoolp]
              _ ≤ _ := mark_getD_mono p2 idx i (tmk a)
        · simp at hi; exact hne hi.symm

/-- When the pool is well-formed and no pick in the loop happens at or after
the expiry of a cooldown set earlier in the same loop, no token index is
attempted twice. -/
theorem callAux_nodup (behave : Nat → Nat → ApiOutcome) (tms tmk : Nat → ℚ) :
    ∀ (f : Nat) (p : TokenPool) (a : Nat) (last : Option CallErr),
      p.cooldowns.length = p.tokens.length →
      (∀ x y, x < y → tms y < tmk x + p.cooldownSec) →
      (callAux behave tms tmk p a f last).tried.Nodup := by
  intro f
  induction f with
  | zero => intro p a last hwf hcd; cases last <;> simp [callAux]
  | succ f ih =>
    intro p a last hwf hcd
    simp only [callAux]
    split
    · simp
    · rename_i tok idx p2 hpick
      obtain ⟨hidx, hle, _, htok, hcoolp, hsec, _, _⟩ :=
        pickToken_ok p (tms a) tok idx p2 hpick
      split
    
      · simp
      · rename_i e hb
        split
        · rename_i hrl
          simp only [List.nodup_cons]
          have hlen2 : idx < p2.cooldowns.length := by
            rw [hcoolp, hwf]; exact hidx
          constructor
          · apply callAux_not_tried
            intro b hab
            have hq : (markTokenRateLimited p2 idx (tmk a)).cooldowns.getD idx 0 =
                max (p2.cooldowns.getD idx 0) (tmk a + max 0 p2.cooldownSec) :=
              mark_getD_self p2 idx (tmk a) hlen2
            rw [hq]
            calc tms b < tmk a + p.cooldownSec := hcd a b (by omega)
              _ ≤ tmk a + max 0 p2.cooldownSec := by
                  rw [hsec]; exact add_le_add_left (le_max_right _ _) _
              _ ≤ max (p2.cooldowns.getD idx 0) (tmk a + max 0 p2.cooldownSec) :=
                  le_max_right _ _
          · apply ih
            · rw [(mark_fields p2 idx (tmk a)).2.2.2, (mark_fields p2 idx (tmk a)).1,
                hcoolp, htok, hwf]
            · intro x y hxy
              rw [(mark_fields p2 idx (tmk a)).2.2.1, hsec]
              exact hcd x y hxy
        · simp

/-- A nonempty list's `getLastD` ignores the default. -/
theorem getLastD_ne_nil (l : List Nat) (d1 d2 : Nat) (h : l ≠ []) :
    l.getLastD d1 = l.getLastD d2 := by
  cases l with
  | nil => exact absurd rfl h
  | cons x xs => rw [List.getLastD_cons, List.getLastD_cons]

/-- When the loop terminates by raising a provider error, that error is the
one produced by the last attempt (the "last error encountered"); the only
other way `last_error` is raised is when it was passed in and no attempt was
made. -/
theorem callAux_last_error (behave : Nat → Nat → ApiOutcome) (tms tmk : Nat → ℚ) :
    ∀ (f : Nat) (p : TokenPool) (a : Nat) (last : Option CallErr) (e : ApiError),
      (callAux behave tms tmk p a f last).result = .raised (.apiFail e) →
      ((callAux behave tms tmk p a f last).tried ≠ [] ∧
        behave (a + (callAux behave tms tmk p a f last).tried.length - 1)
          ((callAux behave tms tmk p a f last).tried.getLastD 0) = .fail e) ∨
      ((callAux behave tms tmk p a f last).tried = [] ∧ last = some (.apiFail e)) := by
  intro f
  induction f with
  | zero =>
    intro p a last e
    cases last with
    | none => intro h; simp [callAux] at h
    | some e2 =>
      simp only [callAux]
      intro h
      injection h with h2
      exact Or.inr ⟨by simp, by rw [h2]⟩
  | succ f ih =>
    intro p a last e
    simp only [callAux]
    split
    · intro h; simp at h
    · rename_i tok idx p2 hpick
      split
      · intro h; simp at h
      · rename_i e2 hb
        split
        · rename_i hrl
          intro h
          simp only at h
          have := ih (markTokenRateLimited p2 idx (tmk a)) (a + 1)
            (some (.apiFail e2)) e h
          cases this with
          | inl hl =>
            obtain ⟨hne, hbl⟩ := hl
            refine Or.inl ⟨by simp, ?_⟩
            have hlen1 : 1 ≤ (callAux behave tms tmk (markTokenRateLimited p2 idx (tmk a))
                (a + 1) f (some (.apiFail e2))).tried.length := by
              cases hcase : (callAux behave tms tmk (markTokenRateLimited p2 idx (tmk a))
                  (a + 1) f (some (.apiFail e2))).tried with
              | nil => exact absurd hcase hne
              | cons y ys => simp [hcase]
            simp only [List.length_cons, List.getLastD_cons]
            rw [show a + ((callAux behave tms tmk (markTokenRateLimited p2 idx (tmk a))
                (a + 1) f (some (.apiFail e2))).tried.length + 1) - 1 =
              a + 1 + (callAux behave tms tmk (markTokenRateLimited p2 idx (tmk a))
                (a + 1) f (some (.apiFail e2))).tried.length - 1 by omega]
            rw [getLastD_ne_nil _ idx 0 hne]
            exact hbl
          | inr hr =>
            obtain ⟨hnil, hlast⟩ := hr
            injection hlast with h2
            injection h2 with h3
            refine Or.inl ⟨by simp, ?_⟩
            rw [hnil]
            simp only [List.length_cons, List.length_nil, List.getLastD_cons,
              List.getLastD_nil]
            rw [show a + (0 + 1) - 1 = a by omega]
            rw [hb, h3]
        · intro h
          simp only at h
          injection h with h2
          injection h2 with h3
          refine Or.inl ⟨by simp, ?_⟩
          simp only [List.length_cons, List.length_nil, List.getLastD_cons,
            List.getLastD_nil]
          rw [show a + (0 + 1) - 1 = a by omega]
          rw [hb, h3]

/-- C2 counterexample: with the cooldown duration configured to 0 (allowed by
`NLP_CLOUD_TOKEN_COOLDOWN_SEC`), a rate-limited token is immediately eligible
again: in a 2-token pool whose second token is cooling until time 100, a call
at time 0 in which the provider always rate-limits tries token 0 twice, so
"each token is tried at most once per logical call" fails. -/
theorem C2_each_token_once_counterexample :
    (callSentimentApi "m" "t" ⟨["a", "b"], [0, 100], 0, 0⟩
        (fun _ _ => .fail ⟨"Rate limit reached", none⟩)
        (fun _ => 0) (fun _ => 0)).tried = [0, 0] ∧
    ¬ ((callSentimentApi "m" "t" ⟨["a", "b"], [0, 100], 0, 0⟩
        (fun _ _ => .fail ⟨"Rate limit reached", none⟩)
        (fun _ => 0) (fun _ => 0)).tried).Nodup := by
  constructor
  · norm_num [callSentimentApi, callAux, pickToken, scanTokens, markTokenRateLimited,
      pyMax, isRateLimitError, strContains, listHasSub, listStartsWith]
    rw [if_neg (by decide : ¬("m" : String) = ""), if_neg (by decide : ¬("t" : String) = "")]
  · norm_num [callSentimentApi, callAux, pickToken, scanTokens, markTokenRateLimited,
      pyMax, isRateLimitError, strContains, listHasSub, listStartsWith]
    rw [if_neg (by decide : ¬("m" : String) = ""), if_neg (by decide : ¬("t" : String) = "")]
    decide

/-- C2 (amended): for every logical `_call_sentiment_api` call, the number of
attempts is bounded by `max(1, N)` for a pool of `N` tokens and every attempt
uses a valid token index; when the pool is well-formed and no pick happens at
or past the expiry of a cooldown set earlier in the same call (in particular
whenever the configured cooldown is positive and the clock is frozen during
the call), each token is tried at most once; on a detected rate-limit error
the chosen token is marked cooling and the loop goes on to the next pick; a
non-rate-limit provider error propagates immediately, ending the call at that
attempt; and when the call fails with a provider error, that error is the one
encountered on the last attempt. -/
theorem C2_token_rotation_amended (model text : String) (p : TokenPool)
    (behave : Nat → Nat → ApiOutcome) (tms tmk : Nat → ℚ) (out : CallOut)
    (hout : out = callSentimentApi model text p behave tms tmk) :
    out.tried.length ≤ max 1 p.tokens.length ∧
    (∀ i, i ∈ out.tried → i < p.tokens.length) ∧
    (p.cooldowns.length = p.tokens.length →
      (∀ x y, x < y → tms y < tmk x + p.cooldownSec) → out.tried.Nodup) ∧
    (∀ e, out.result = .raised (.apiFail e) →
      out.tried ≠ [] ∧ behave (out.tried.length - 1) (out.tried.getLastD 0) = .fail e) ∧
    (∀ (q : TokenPool) (a f : Nat) (last : Option CallErr) (tok : String)
        (idx : Nat) (q2 : TokenPool) (e : ApiError),
      pickToken q (tms a) = .ok (tok, idx, q2) → behave a idx = .fail e →
      isRateLimitError e = true →
      callAux behave tms tmk q a (f + 1) last =
        ⟨(callAux behave tms tmk (markTokenRateLimited q2 idx (tmk a)) (a + 1) f
            (some (.apiFail e))).result,
          idx :: (callAux behave tms tmk (markTokenRateLimited q2 idx (tmk a)) (a + 1) f
            (some (.apiFail e))).tried⟩) ∧
    (∀ (q : TokenPool) (a f : Nat) (last : Option CallErr) (tok : String)
        (idx : Nat) (q2 : TokenPool) (e : ApiError),
      pickToken q (tms a) = .ok (tok, idx, q2) → behave a idx = .fail e →
      isRateLimitError e = false →
      callAux behave tms tmk q a (f + 1) last = ⟨.raised (.apiFail e), [idx]⟩) := by
  refine ⟨?_, ?_, ?_, ?_, ?_, ?_⟩
  · subst hout
    unfold callSentimentApi
    by_cases hm : model = ""
    · simp [hm]
    · by_cases ht : text = ""
      · simp [hm, ht]
      · rw [if_neg hm, if_neg ht]
        exact callAux_tried_length behave tms tmk (max 1 p.tokens.length) p 0 none
  · subst hout
    unfold callSentimentApi
    by_cases hm : model = ""
    · simp [hm]
    · by_cases ht : text = ""
      · simp [hm, ht]
      · rw [if_neg hm, if_neg ht]
        exact fun i hi => callAux_tried_lt behave tms tmk (max 1 p.tokens.length) p 0 none i hi
  · intro hwf hcd
    subst hout
    unfold callSentimentApi
    by_cases hm : model = ""
    · simp [hm]
    · by_cases ht : text = ""
      · simp [hm, ht]
      · rw [if_neg hm, if_neg ht]
        exact callAux_nodup behave tms tmk (max 1 p.tokens.length) p 0 none hwf hcd
  · intro e hres
    subst hout
    unfold callSentimentApi at hres ⊢
    by_cases hm : model = ""
    · rw [if_pos hm] at hres; simp at hres
    · by_cases ht : text = ""
      · rw [if_neg hm, if_pos ht] at hres; simp at hres
      · rw [if_neg hm, if_neg ht] at hres ⊢
        have := callAux_last_error behave tms tmk (max 1 p.tokens.length) p 0 none e hres
        cases this with
        | inl hl =>
          obtain ⟨hne, hbl⟩ := hl
          rw [show (0 : Nat) + (callAux behave tms tmk p 0 (max 1 p.tokens.length)
              none).tried.length - 1 =
            (callAux behave tms tmk p 0 (max 1 p.tokens.length) none).tried.length - 1
            by omega] at hbl
          exact ⟨hne, hbl⟩
        | inr hr => exact absurd hr.2 (by simp)
  · intro q a f last tok idx q2 e hpick hb hrl
    simp only [callAux]
    rw [hpick]
    simp only [hb, hrl, if_pos]
  · intro q a f last tok idx q2 e hpick hb hrl
    simp only [callAux]
    rw [hpick]
    simp [hb, hrl]

/-- Witness for C2 (amended) at a concrete pool: two tokens, cooldown 60,
frozen clock at 0, provider always rate-limiting — each token is tried at
most once. -/
theorem C2_token_rotation_witness :
    (callSentimentApi "m" "t" ⟨["a", "b"], [0, 0], 0, 60⟩
        (fun _ _ => .fail ⟨"Rate limit reached", none⟩)
        (fun _ => 0) (fun _ => 0)).tried.Nodup :=
  (C2_token_rotation_amended "m" "t" ⟨["a", "b"], [0, 0], 0, 60⟩
      (fun _ _ => .fail ⟨"Rate limit reached", none⟩) (fun _ => 0) (fun _ => 0)
      _ rfl).2.2.1 (by decide)
    (by intro x y hxy; norm_num)

/-! ## Lemmas about the sentiment bucketing -/

theorem clampScore_nonneg (s : ℚ) : 0 ≤ clampScore s := by
  unfold clampScore
  split_ifs with h
  · exact le_refl 0
  · exact le_of_not_lt h

theorem updAssoc_ne_nil (m : List (String × ℚ)) (k : String) (v : ℚ) :
    updAssoc m k v ≠ [] := by
  cases m with
  | nil => simp [updAssoc]
  | cons x rest =>
    obtain ⟨k2, v2⟩ := x
    unfold updAssoc
    split_ifs <;> simp

theorem updAssoc_getD_self (m : List (String × ℚ)) (k : String) (v : ℚ) :
    assocGetD (updAssoc m k v) k = assocGetD m k + v := by
  induction m with
  | nil => simp [updAssoc, assocGetD]
  | cons x rest ih =>
    obtain ⟨k2, v2⟩ := x
    unfold updAssoc
    by_cases h : k2 = k
    · rw [if_pos h]
      simp [assocGetD, h]
    · rw [if_neg h]
      simp only [assocGetD, if_neg h]
      exact ih

theorem updAssoc_getD_other (m : List (String × ℚ)) (k k2 : String) (v : ℚ)
    (h : k2 ≠ k) : assocGetD (updAssoc m k v) k2 = assocGetD m k2 := by
  induction m with
  | nil =>
    simp only [updAssoc, assocGetD]
    rw [if_neg (fun hEq => h hEq.symm)]
  | cons x rest ih =>
    obtain ⟨k3, v3⟩ := x
    unfold updAssoc
    by_cases h3 : k3 = k
    · rw [if_pos h3]
      have : k3 ≠ k2 := by rw [h3]; exact fun hEq => h hEq.symm
      simp [assocGetD, if_neg this]
    · rw [if_neg h3]
      simp only [assocGetD]
      split_ifs with h4
      · rfl
      · exact ih

theorem updAssoc_sum (m : List (String × ℚ)) (k : String) (v : ℚ) :
    ((updAssoc m k v).map (fun x => x.2)).sum = (m.map (fun x => x.2)).sum + v := by
  induction m with
  | nil => simp [updAssoc]
  | cons x rest ih =>
    obtain ⟨k2, v2⟩ := x
    unfold updAssoc
    split_ifs with h
    · simp only [List.map_cons, List.sum_cons]
      ring
    · simp only [List.map_cons, List.sum_cons, ih]
      ring

theorem updAssoc_nonneg (m : List (String × ℚ)) (k : String) (v : ℚ)
    (hm : ∀ x ∈ m, 0 ≤ x.2) (hv : 0 ≤ v) : ∀ x ∈ updAssoc m k v, 0 ≤ x.2 := by
  induction m with
  | nil =>
    intro x hx
    simp [updAssoc] at hx
    rw [hx]
    exact hv
  | cons y rest ih =>
    obtain ⟨k2, v2⟩ := y
    intro x hx
    unfold updAssoc at hx
    split_ifs at hx with h
    · simp only [List.mem_cons] at hx
      cases hx with
      | inl hEq =>
        rw [hEq]
        have h2 : (0 : ℚ) ≤ v2 := hm (k2, v2) (by simp)
        simpa using add_nonneg h2 hv
      | inr hmem => exact hm x (List.mem_cons_of_mem _ hmem)
    · simp only [List.mem_cons] at hx
      cases hx with
      | inl hEq => exact hm x (hEq ▸ by simp)
      | inr hmem =>
        exact ih (fun y hy => hm y (List.mem_cons_of_mem _ hy)) x hmem

theorem updAssoc_keys (m : List (String × ℚ)) (k : String) (v : ℚ) :
    (updAssoc m k v).map Prod.fst =
      if (m.map Prod.fst).contains k then m.map Prod.fst
      else m.map Prod.fst ++ [k] := by
  induction m with
  | nil => simp [updAssoc]
  | cons x rest ih =>
    obtain ⟨k2, v2⟩ := x
    unfold updAssoc
    by_cases h : k2 = k
    · rw [if_pos h]
      have hc : (((k2, v2) :: rest).map Prod.fst).contains k = true := by
        simp [List.contains_cons, h]
      rw [if_pos hc]
      simp
    · rw [if_neg h]
      simp only [List.map_cons, List.contains_cons]
      have hbeq : (k == k2) = false := by
        simp only [beq_eq_false_iff_ne, ne_eq]
        exact fun hEq => h hEq.symm
      rw [hbeq]
      simp only [Bool.false_or]
      split_ifs with h2
      · simp only [List.map_cons] at ih
        rw [ih, if_pos h2]
      · simp only [List.map_cons] at ih
        rw [ih, if_neg h2]
        simp

theorem firstDedupAux_congr (l : List String) :
    ∀ (s1 s2 : List String), (∀ a, s1.contains a = s2.contains a) →
      firstDedupAux s1 l = firstDedupAux s2 l := by
  induction l with
  | nil => intro s1 s2 _; rfl
  | cons x rest ih =>
    intro s1 s2 hs
    unfold firstDedupAux
    rw [hs x]
    split_ifs with h
    · exact ih s1 s2 hs
    · rw [ih (x :: s1) (x :: s2)
        (fun a => by rw [List.contains_cons, List.contains_cons, hs a])]

theorem firstDedupAux_cons (seen : List String) (x : String) (rest : List String) :
    firstDedupAux seen (x :: rest) =
      if seen.contains x then firstDedupAux seen rest
      else x :: firstDedupAux (x :: seen) rest := rfl

theorem buildBuckets_keys (ps : List (String × ℚ)) :
    ∀ (acc : List (String × ℚ)),
      (buildBuckets acc ps).map Prod.fst =
        acc.map Prod.fst ++
          firstDedupAux (acc.map Prod.fst) (ps.map (fun x => bucketKey x.1)) := by
  induction ps with
  | nil => intro acc; simp [buildBuckets, firstDedupAux]
  | cons x rest ih =>
    intro acc
    obtain ⟨lbl, sc⟩ := x
    simp only [buildBuckets, List.map_cons]
    rw [ih (updAssoc acc (bucketKey lbl) (clampScore sc))]
    rw [updAssoc_keys]
    rw [firstDedupAux_cons]
    split_ifs with h
    · rfl
    · rw [firstDedupAux_congr _ (acc.map Prod.fst ++ [bucketKey lbl])
        (bucketKey lbl :: acc.map Prod.fst) ?_]
      · simp
      · intro a
        cases hbeq : a == bucketKey lbl <;>
          cases hacc : (acc.map Prod.fst).contains a <;> simp_all

theorem buildBuckets_getD (ps : List (String × ℚ)) :
    ∀ (acc : List (String × ℚ)) (k : String),
      assocGetD (buildBuckets acc ps) k =
        assocGetD acc k +
          ((ps.filter (fun x => bucketKey x.1 = k)).map (fun x => clampScore x.2)).sum := by
  induction ps with
  | nil => intro acc k; simp [buildBuckets]
  | cons x rest ih =>
    intro acc k
    obtain ⟨lbl, sc⟩ := x
    simp only [buildBuckets]
    rw [ih (updAssoc acc (bucketKey lbl) (clampScore sc)) k]
    by_cases h : bucketKey lbl = k
    · rw [h, updAssoc_getD_self]
      have : (((lbl, sc) :: rest).filter (fun x => bucketKey x.1 = k)) =
          (lbl, sc) :: rest.filter (fun x => bucketKey x.1 = k) := by
        rw [List.filter_cons_of_pos]
        simpa using h
      rw [this]
      simp only [List.map_cons, List.sum_cons]
      ring
    · rw [updAssoc_getD_other _ _ _ _ (fun hEq => h hEq.symm)]
      have : (((lbl, sc) :: rest).filter (fun x => bucketKey x.1 = k)) =
          rest.filter (fun x => bucketKey x.1 = k) := by
        rw [List.filter_cons_of_neg]
        simpa using h
      rw [this]

theorem buildBuckets_sum (ps : List (String × ℚ)) :
    ∀ (acc : List (String × ℚ)),
      ((buildBuckets acc ps).map (fun x => x.2)).sum =
        (acc.map (fun x => x.2)).sum + (ps.map (fun x => clampScore x.2)).sum := by
  induction ps with
  | nil => intro acc; simp [buildBuckets]
  | cons x rest ih =>
    intro acc
    obtain ⟨lbl, sc⟩ := x
    simp only [buildBuckets, List.map_cons, List.sum_cons]
    rw [ih (updAssoc acc (bucketKey lbl) (clampScore sc)), updAssoc_sum]
    ring

theorem buildBuckets_nonneg (ps : List (String × ℚ)) :
    ∀ (acc : List (String × ℚ)), (∀ x ∈ acc, 0 ≤ x.2) →
      ∀ x ∈ buildBuckets acc ps, 0 ≤ x.2 := by
  induction ps with
  | nil => intro acc hacc; exact hacc
  | cons y rest ih =>
    intro acc hacc
    obtain ⟨lbl, sc⟩ := y
    simp only [buildBuckets]
    exact ih (updAssoc acc (bucketKey lbl) (clampScore sc))
      (updAssoc_nonneg acc (bucketKey lbl) (clampScore sc) hacc (clampScore_nonneg sc))

theorem buildBuckets_eq_nil_iff (ps : List (String × ℚ)) :
    ∀ (acc : List (String × ℚ)), buildBuckets acc ps = [] ↔ acc = [] ∧ ps = [] := by
  induction ps with
  | nil => intro acc; simp [buildBuckets]
  | cons y rest ih =>
    intro acc
    obtain ⟨lbl, sc⟩ := y
    simp only [buildBuckets]
    rw [ih (updAssoc acc (bucketKey lbl) (clampScore sc))]
    simp [updAssoc_ne_nil]

/-- Python `max(..., key=...)` returns the first element attaining the maximal
score: everything before it in the list is strictly smaller, everything in the
list is at most it. -/
theorem pyMaxBySnd_spec (l : List (String × ℚ)) :
    ∀ (best : String × ℚ),
      ∃ pre post, best :: l = pre ++ (pyMaxBySnd best l) :: post ∧
        (∀ y ∈ pre, y.2 < (pyMaxBySnd best l).2) ∧
        (∀ y ∈ best :: l, y.2 ≤ (pyMaxBySnd best l).2) := by
  induction l with
  | nil =>
    intro best
    refine ⟨[], [], by simp [pyMaxBySnd], by simp, ?_⟩
    intro y hy
    simp only [pyMaxBySnd]
    simp at hy
    rw [hy]
  | cons x rest ih =>
    intro best
    by_cases hlt : best.2 < x.2
    · rw [show pyMaxBySnd best (x :: rest) = pyMaxBySnd x rest by
        simp [pyMaxBySnd, hlt]]
      obtain ⟨pre, post, hsplit, hpre, hall⟩ := ih x
      refine ⟨best :: pre, post, by rw [List.cons_append, ← hsplit], ?_, ?_⟩
      · intro y hy
        simp only [List.mem_cons] at hy
        cases hy with
        | inl hEq =>
          rw [hEq]
          exact lt_of_lt_of_le hlt (hall x (by simp))
        | inr hmem => exact hpre y hmem
      · intro y hy
        simp only [List.mem_cons] at hy
        cases hy with
        | inl hEq => exact le_of_lt (hEq ▸ lt_of_lt_of_le hlt (hall x (by simp)))
        | inr hmem => exact hall y (List.mem_cons.mpr hmem)
    · rw [show pyMaxBySnd best (x :: rest) = pyMaxBySnd best rest by
        simp [pyMaxBySnd, hlt]]
      obtain ⟨pre, post, hsplit, hpre, hall⟩ := ih best
      cases pre with
      | nil =>
        simp only [List.nil_append] at hsplit
        have hbest : pyMaxBySnd best rest = best := by
          have := hsplit
          injection this with h1 _
          exact h1.symm
        refine ⟨[], x :: rest, by rw [hbest]; simp, by simp, ?_⟩
        intro y hy
        simp only [List.mem_cons] at hy
        rcases hy with hEq | hEq | hmem
        · rw [hEq, hbest]
        · rw [hEq, hbest]; exact le_of_not_lt hlt
        · exact hall y (by simp [hmem])
      | cons q pre2 =>
        have hq : q = best ∧ rest = pre2 ++ (pyMaxBySnd best rest) :: post := by
          rw [List.cons_append] at hsplit
          injection hsplit with h1 h2
          exact ⟨h1.symm, h2⟩
        obtain ⟨hqb, hrest⟩ := hq
        have hbestlt : best.2 < (pyMaxBySnd best rest).2 := by
          have := hpre q (by simp)
          rwa [hqb] at this
        refine ⟨best :: x :: pre2, post, ?_, ?_, ?_⟩
        · rw [show (best :: x :: pre2) ++ (pyMaxBySnd best rest) :: post =
            best :: x :: (pre2 ++ (pyMaxBySnd best rest) :: post) by simp]
          rw [← hrest]
        · intro y hy
          simp only [List.mem_cons] at hy
          rcases hy with hEq | hEq | hmem
          · rw [hEq]; exact hbestlt
          · rw [hEq]; exact lt_of_le_of_lt (le_of_not_lt hlt) hbestlt
          · exact hpre y (by simp [hmem])
        · intro y hy
          simp only [List.mem_cons] at hy
          rcases hy with hEq | hEq | hmem
          · rw [hEq]; exact le_of_lt hbestlt
          · rw [hEq]; exact le_of_lt (lt_of_le_of_lt (le_of_not_lt hlt) hbestlt)
          · exact hall y (by simp [hmem])

theorem assocGetD_map_div (m : List (String × ℚ)) (k : String) (t : ℚ) :
    assocGetD (m.map (fun x => (x.1, x.2 / t))) k = assocGetD m k / t := by
  induction m with
  | nil => simp [assocGetD]
  | cons x rest ih =>
    obtain ⟨k2, v⟩ := x
    simp only [List.map_cons, assocGetD]
    split_ifs with h
    · rfl
    · exact ih

theorem sum_map_snd_div (m : List (String × ℚ)) (t : ℚ) :
    (((m.map (fun x => (x.1, x.2 / t))).map (fun x => x.2)).sum) =
      ((m.map (fun x => x.2)).sum) / t := by
  induction m with
  | nil => simp
  | cons x rest ih =>
    simp only [List.map_cons, List.sum_cons, ih]
    rw [add_div]

/-- A matched label is put into one of the three sentiment buckets. -/
theorem bucketKey_matched (lbl : String) (hm : labelMatched lbl = true) :
    bucketKey lbl = "positive" ∨ bucketKey lbl = "negative" ∨ bucketKey lbl = "neutral" := by
  simp only [labelMatched, Bool.or_eq_true] at hm
  simp only [bucketKey]
  split_ifs with h1 h2 h3 h4 h5 h6
  · exact Or.inl rfl
  · exact Or.inr (Or.inl rfl)
  · exact Or.inr (Or.inr rfl)
  · exact Or.inl rfl
  · exact Or.inr (Or.inl rfl)
  · exact Or.inr (Or.inr rfl)
  · exfalso
    simp only [Bool.or_eq_true] at h1 h2 h3
    tauto

/-- An unmatched label passes through as its own bucket key. -/
theorem bucketKey_unmatched (lbl : String) (hm : labelMatched lbl = false) :
    bucketKey lbl = lbl := by
  simp only [labelMatched, Bool.or_eq_false_iff] at hm
  simp only [bucketKey]
  split_ifs with h1 h2 h3 h4 h5 h6
  · simp only [Bool.or_eq_true] at h1; rcases h1 with h | h <;> simp_all
  · simp only [Bool.or_eq_true] at h2; rcases h2 with h | h <;> simp_all
  · simp only [Bool.or_eq_true] at h3; rcases h3 with h | h <;> simp_all
  · simp_all
  · simp_all
  · simp_all
  · rfl

/-- The distribution returned by `_derive_sentiment_from_pairs` is
`deriveScores`. -/
theorem derive_snd (pairs : List (String × ℚ)) :
    (deriveSentimentFromPairs pairs).2 = deriveScores pairs := by
  simp only [deriveSentimentFromPairs, deriveScores]
  split <;> rfl

/-- The label returned by `_derive_sentiment_from_pairs` is Python
`max(scores.items(), key=...)` over the score distribution. -/
theorem derive_fst (pairs : List (String × ℚ)) :
    ∀ x rest, deriveScores pairs = x :: rest →
      (deriveSentimentFromPairs pairs).1 = (pyMaxBySnd x rest).1 := by
  intro x rest hsc
  simp only [deriveScores] at hsc
  simp only [deriveSentimentFromPairs]
  split
  · rename_i heq
    rw [heq] at hsc
    exact absurd hsc (by simp)
  · rename_i y ys heq
    rw [heq] at hsc
    injection hsc with h1 h2
    rw [h1, h2]

theorem deriveScores_ne_nil (pairs : List (String × ℚ)) : deriveScores pairs ≠ [] := by
  simp only [deriveScores]
  split_ifs with h h2 h3
  all_goals intro hc
  · simp at hc
  · simp at hc
  · simp only [List.map_eq_nil_iff] at hc
    exact h (by rw [hc]; rfl)
  · simp only [List.map_eq_nil_iff] at hc
    exact h (by rw [hc]; rfl)

theorem map_fst_map_div (m : List (String × ℚ)) (t : ℚ) :
    (m.map (fun x => (x.1, x.2 / t))).map Prod.fst = m.map Prod.fst := by
  induction m with
  | nil => rfl
  | cons x rest ih => simp [ih]

theorem buildBuckets_not_isEmpty (pairs : List (String × ℚ)) (hp : pairs ≠ []) :
    ¬((buildBuckets [] pairs).isEmpty = true) := by
  rw [List.isEmpty_iff, buildBuckets_eq_nil_iff]
  exact fun hc => hp hc.2

/-- The bucket keys of the produced distribution: `neutral` for empty input,
otherwise every bucket key in first-encountered order. -/
theorem deriveScores_keys (pairs : List (String × ℚ)) :
    (deriveScores pairs).map Prod.fst =
      if pairs = [] then ["neutral"]
      else firstDedup (pairs.map (fun x => bucketKey x.1)) := by
  by_cases hp : pairs = []
  · subst hp
    simp [deriveScores, buildBuckets]
  · rw [if_neg hp]
    simp only [deriveScores]
    rw [if_neg (buildBuckets_not_isEmpty pairs hp)]
    rw [map_fst_map_div]
    rw [buildBuckets_keys]
    simp [firstDedup]

/-- The produced score of every bucket key is the clamped mass of the raw
pairs mapped to it, divided by `sum(...) or 1.0`. -/
theorem deriveScores_getD (pairs : List (String × ℚ)) (hp : pairs ≠ []) (k : String) :
    assocGetD (deriveScores pairs) k =
      ((pairs.filter (fun x => bucketKey x.1 = k)).map (fun x => clampScore x.2)).sum
        / pyTotal pairs := by
  simp only [deriveScores]
  rw [if_neg (buildBuckets_not_isEmpty pairs hp)]
  rw [assocGetD_map_div]
  rw [buildBuckets_getD]
  simp only [assocGetD, zero_add]
  congr 1
  rw [buildBuckets_sum]
  simp only [List.map_nil, List.sum_nil, zero_add]
  simp [pyTotal]

/-- C3: sentiment bucketing of raw (label, score) pairs: a label is bucketed
into positive/negative/neutral exactly when it matches a direct sentiment
word (substring test on the lowercased, stripped label) or a known emotion
name from the fixed vocabulary, and every unmatched label passes through as
its own bucket key; the produced keys are exactly the bucket keys of the
input in first-encountered order (no label dropped); each bucket's score is
the sum of its pairs' scores with negatives clamped to zero, divided by the
total; and the result label is the first bucket attaining the maximal score
(ties broken by first-encountered-bucket order). -/
theorem C3_sentiment_bucketing (pairs : List (String × ℚ)) :
    (∀ lbl, (labelMatched lbl = true →
        bucketKey lbl = "positive" ∨ bucketKey lbl = "negative" ∨
          bucketKey lbl = "neutral") ∧
      (labelMatched lbl = false → bucketKey lbl = lbl)) ∧
    ((deriveSentimentFromPairs pairs).2.map Prod.fst =
      if pairs = [] then ["neutral"]
      else firstDedup (pairs.map (fun x => bucketKey x.1))) ∧
    (pairs ≠ [] → ∀ k, assocGetD (deriveSentimentFromPairs pairs).2 k =
      ((pairs.filter (fun x => bucketKey x.1 = k)).map (fun x => clampScore x.2)).sum
        / pyTotal pairs) ∧
    (∃ pre post v,
      (deriveSentimentFromPairs pairs).2 =
        pre ++ ((deriveSentimentFromPairs pairs).1, v) :: post ∧
      (∀ y ∈ pre, y.2 < v) ∧
      (∀ y ∈ (deriveSentimentFromPairs pairs).2, y.2 ≤ v)) := by
  refine ⟨?_, ?_, ?_, ?_⟩
  · intro lbl
    exact ⟨bucketKey_matched lbl, bucketKey_unmatched lbl⟩
  · rw [derive_snd]
    exact deriveScores_keys pairs
  · intro hp k
    rw [derive_snd]
    exact deriveScores_getD pairs hp k
  · cases hsc : deriveScores pairs with
    | nil => exact absurd hsc (deriveScores_ne_nil pairs)
    | cons x rest =>
      obtain ⟨pre, post, hsplit, hpre, hall⟩ := pyMaxBySnd_spec rest x
      refine ⟨pre, post, (pyMaxBySnd x rest).2, ?_, hpre, ?_⟩
      · rw [derive_snd, hsc]
        rw [derive_fst pairs x rest hsc]
        exact hsplit
      · intro y hy
        rw [derive_snd, hsc] at hy
        exact hall y hy

/-- Witness for C3 at a concrete input: a vocabulary-matched label and a
pass-through label; the "negative" bucket receives no mass. -/
theorem C3_sentiment_bucketing_witness :
    (deriveSentimentFromPairs [("joy", 1/2), ("Foo", 1/4)]).2.map Prod.fst =
      ["positive", "Foo"] ∧
    assocGetD (deriveSentimentFromPairs [("joy", 1/2), ("Foo", 1/4)]).2 "negative" = 0 := by
  have h := C3_sentiment_bucketing [("joy", 1/2), ("Foo", 1/4)]
  have hb1 : bucketKey "joy" = "positive" := by decide
  have hb2 : bucketKey "Foo" = "Foo" := by decide
  constructor
  · rw [h.2.1, if_neg (by simp)]
    decide
  · rw [h.2.2.1 (by simp) "negative"]
    simp [List.filter_cons, hb1, hb2]

/-- In a list of non-negative rationals summing to zero, every element is zero. -/
theorem list_nonneg_sum_zero : ∀ (l : List ℚ), (∀ x ∈ l, 0 ≤ x) → l.sum = 0 →
    ∀ x ∈ l, x = 0 := by
  intro l
  induction l with
  | nil => intro _ _ x hx; simp at hx
  | cons y rest ih =>
    intro hnn hsum x hx
    have hyn : 0 ≤ y := hnn y (by simp)
    have hrn : ∀ z ∈ rest, 0 ≤ z := fun z hz => hnn z (by simp [hz])
    have hrs : 0 ≤ rest.sum := List.sum_nonneg hrn
    simp only [List.sum_cons] at hsum
    have hy0 : y = 0 := by linarith
    have hr0 : rest.sum = 0 := by linarith
    simp only [List.mem_cons] at hx
    cases hx with
    | inl hEq => rw [hEq]; exact hy0
    | inr hmem => exact ih hrn hr0 x hmem

/-- All scores produced by the bucketing are non-negative. -/
theorem deriveScores_nonneg (pairs : List (String × ℚ)) :
    ∀ x ∈ deriveScores pairs, 0 ≤ x.2 := by
  simp only [deriveScores]
  set tmp := if (buildBuckets [] pairs).isEmpty then [("neutral", (1 : ℚ))]
    else buildBuckets [] pairs with htmp
  have hvals : ∀ x ∈ tmp, (0 : ℚ) ≤ x.2 := by
    rw [htmp]
    split_ifs with h
    · intro x hx
      simp only [List.mem_singleton] at hx
      rw [hx]
      norm_num
    · exact buildBuckets_nonneg pairs [] (by simp)
  have htot : (0 : ℚ) ≤
      (if (tmp.map (fun x => x.2)).sum = 0 then 1 else (tmp.map (fun x => x.2)).sum) := by
    split_ifs with h
    · norm_num
    · apply List.sum_nonneg
      intro v hv
      simp only [List.mem_map] at hv
      obtain ⟨y, hy, hvy⟩ := hv
      rw [← hvy]
      exact hvals y hy
  intro x hx
  simp only [List.mem_map] at hx
  obtain ⟨y, hy, hxy⟩ := hx
  rw [← hxy]
  exact div_nonneg (hvals y hy) htot

/-- When the clamped input mass is nonzero, the produced scores sum to 1. -/
theorem deriveScores_sum_one (pairs : List (String × ℚ))
    (h : (pairs.map (fun x => clampScore x.2)).sum ≠ 0) :
    ((deriveScores pairs).map (fun x => x.2)).sum = 1 := by
  have hp : pairs ≠ [] := by
    intro hc
    rw [hc] at h
    simp at h
  simp only [deriveScores]
  rw [if_neg (buildBuckets_not_isEmpty pairs hp)]
  rw [sum_map_snd_div]
  have ht : (List.map (fun x => x.2) (buildBuckets [] pairs)).sum =
      (pairs.map (fun x => clampScore x.2)).sum := by
    rw [buildBuckets_sum]
    simp
  rw [ht, if_neg h, div_self h]

/-- C4 counterexample: on the input `[("x", 0.0)]` the clamped total is zero,
`sum(tmp.values()) or 1.0` silently divides by 1, and the produced scores sum
to 0 — not 1.0 within the 1e-6 tolerance. -/
theorem C4_normalized_sum_counterexample :
    ¬ (|(((deriveSentimentFromPairs [("x", 0)]).2.map (fun x => x.2)).sum) - 1|
        ≤ 1 / 1000000) := by
  have hb : bucketKey "x" = "x" := by decide
  have hsc : (deriveSentimentFromPairs [("x", (0 : ℚ))]).2 = [("x", 0 / 1)] := by
    rw [derive_snd]
    simp only [deriveScores, buildBuckets, updAssoc, hb, clampScore]
    norm_num
  rw [hsc]
  norm_num

/-- C4 (amended): the distribution produced by sentiment bucketing has only
non-negative scores; an empty input is replaced by the single entry
`neutral = 1.0`; whenever the clamped input mass is nonzero, the scores sum to
exactly 1; but when the input is nonempty with zero clamped mass, the
`or 1.0` guard makes every produced score 0 (the distribution sums to 0, not
1). -/
theorem C4_distribution_invariant_amended (pairs : List (String × ℚ)) :
    (∀ x ∈ (deriveSentimentFromPairs pairs).2, 0 ≤ x.2) ∧
    (pairs = [] → (deriveSentimentFromPairs pairs).2 = [("neutral", 1)]) ∧
    ((pairs.map (fun x => clampScore x.2)).sum ≠ 0 →
      (((deriveSentimentFromPairs pairs).2.map (fun x => x.2)).sum) = 1) ∧
    (pairs ≠ [] → (pairs.map (fun x => clampScore x.2)).sum = 0 →
      ∀ x ∈ (deriveSentimentFromPairs pairs).2, x.2 = 0) := by
  refine ⟨?_, ?_, ?_, ?_⟩
  · rw [derive_snd]
    exact deriveScores_nonneg pairs
  · intro hp
    subst hp
    rw [derive_snd]
    simp only [deriveScores, buildBuckets]
    norm_num
  · intro h
    rw [derive_snd]
    exact deriveScores_sum_one pairs h
  · intro hp hsum
    rw [derive_snd]
    have hvals0 : ∀ y ∈ buildBuckets [] pairs, y.2 = 0 := by
      have hnn : ∀ v ∈ (buildBuckets [] pairs).map (fun x => x.2), (0 : ℚ) ≤ v := by
        intro v hv
        simp only [List.mem_map] at hv
        obtain ⟨y, hy, hvy⟩ := hv
        rw [← hvy]
        exact buildBuckets_nonneg pairs [] (by simp) y hy
      have hs : ((buildBuckets [] pairs).map (fun x => x.2)).sum = 0 := by
        rw [buildBuckets_sum]
        simpa using hsum
      intro y hy
      exact list_nonneg_sum_zero _ hnn hs y.2 (List.mem_map_of_mem _ hy)
    intro x hx
    simp only [deriveScores] at hx
    rw [if_neg (buildBuckets_not_isEmpty pairs hp)] at hx
    simp only [List.mem_map] at hx
    obtain ⟨y, hy, hxy⟩ := hx
    rw [← hxy]
    simp only
    rw [hvals0 y hy, zero_div]

/-- Witness for C4 at concrete inputs: positive mass gives a sum of exactly 1,
and the empty input yields `neutral = 1.0`. -/
theorem C4_distribution_invariant_witness :
    (((deriveSentimentFromPairs [("joy", 2)]).2.map (fun x => x.2)).sum) = 1 ∧
    (deriveSentimentFromPairs []).2 = [("neutral", 1)] :=
  ⟨(C4_distribution_invariant_amended [("joy", 2)]).2.2.1
      (by norm_num [clampScore]),
    (C4_distribution_invariant_amended []).2.1 rfl⟩

/-! ## Lemmas about the minimum-score filter -/

theorem normalize_distribution_ne_nil (pairs : List (String × ℚ)) :
    normalize_distribution pairs ≠ [] := by
  simp only [normalize_distribution]
  split_ifs with h
  · simp
  · intro hc
    rw [List.map_eq_nil_iff, List.map_eq_nil_iff] at hc
    rw [hc] at h
    simp at h

theorem normalize_distribution_sum_one (pairs : List (String × ℚ))
    (h : ((pairs.map (fun kv => clampScore kv.2)).sum) ≠ 0) :
    ((normalize_distribution pairs).map (fun kv => kv.2)).sum = 1 := by
  simp only [normalize_distribution]
  have hcl : ((pairs.map (fun kv => (kv.1, clampScore kv.2))).map (fun kv => kv.2)).sum
      = (pairs.map (fun kv => clampScore kv.2)).sum := by
    rw [List.map_map]
    rfl
  rw [hcl, if_neg h, sum_map_snd_div, hcl, div_self h]

/-- C5: the minimum-score filter of `analyze` / `analyze_batch`: when every
label falls below the threshold the filter is skipped and the pre-filter
distribution passes through unchanged; the result is never empty for a
nonempty canonical distribution; and whenever the filter keeps some labels
while removing at least one, the survivors are replaced by their
renormalization, whose scores sum to exactly 1. -/
theorem C5_min_score_filter (minScore : ℚ) (canonPairs : List (String × ℚ)) :
    ((∀ kv ∈ canonPairs, kv.2 < minScore) →
      applyMinScoreFilter minScore canonPairs = canonPairs) ∧
    (canonPairs ≠ [] → applyMinScoreFilter minScore canonPairs ≠ []) ∧
    (0 < minScore → (canonPairs.filter (fun kv => minScore ≤ kv.2)) ≠ [] →
      (∃ kv ∈ canonPairs, kv.2 < minScore) →
      ((applyMinScoreFilter minScore canonPairs).map (fun kv => kv.2)).sum = 1 ∧
      applyMinScoreFilter minScore canonPairs =
        normalize_distribution (canonPairs.filter (fun kv => minScore ≤ kv.2))) := by
  refine ⟨?_, ?_, ?_⟩
  · intro hall
    simp only [applyMinScoreFilter]
    split_ifs with hpos hemp
    · rfl
    · exfalso
      apply hemp
      rw [List.isEmpty_iff, List.filter_eq_nil_iff]
      intro kv hkv
      simp only [decide_eq_true_eq]
      exact not_le.mpr (hall kv hkv)
    · rfl
  · intro hne
    simp only [applyMinScoreFilter]
    split_ifs with hpos hemp
    · exact hne
    · exact normalize_distribution_ne_nil _
    · exact hne
  · intro hpos hfil _hrem
    have hemp : (canonPairs.filter (fun kv => minScore ≤ kv.2)).isEmpty = false := by
      rw [Bool.eq_false_iff]
      intro htrue
      exact hfil (List.isEmpty_iff.mp htrue)
    have happ : applyMinScoreFilter minScore canonPairs =
        normalize_distribution (canonPairs.filter (fun kv => minScore ≤ kv.2)) := by
      simp only [applyMinScoreFilter]
      rw [if_pos hpos, hemp]
      simp
    refine ⟨?_, happ⟩
    rw [happ]
    apply normalize_distribution_sum_one
    have hpos2 : ∀ v ∈ (canonPairs.filter (fun kv => minScore ≤ kv.2)).map
        (fun kv => clampScore kv.2), 0 < v := by
      intro v hv
      simp only [List.mem_map, List.mem_filter, decide_eq_true_eq] at hv
      obtain ⟨kv, ⟨_, hge⟩, hvv⟩ := hv
      rw [← hvv]
      unfold clampScore
      split_ifs with hneg
      · linarith
      · linarith
    have hnil : (canonPairs.filter (fun kv => minScore ≤ kv.2)).map
        (fun kv => clampScore kv.2) ≠ [] := by
      rw [ne_eq, List.map_eq_nil_iff]
      exact hfil
    exact ne_of_gt (List.sum_pos _ hpos2 hnil)

/-- Witness for C5 at a concrete distribution: threshold 1 keeps ("a", 3) and
removes ("b", 0); the surviving score renormalizes to sum 1. -/
theorem C5_min_score_filter_witness :
    ((applyMinScoreFilter 1 [("a", 3), ("b", 0)]).map (fun kv => kv.2)).sum = 1 :=
  ((C5_min_score_filter 1 [("a", 3), ("b", 0)]).2.2 (by norm_num) (by decide)
    ⟨("b", 0), by simp, by norm_num⟩).1

/-- C6 counterexample: on the two-sample list `[0, 10]` with `q = 0.95` the
code returns element 0 (`int(0.95 * 1)` truncates to index 0), but
nearest-rank selection `round(q * (n - 1))` names index 1, element 10. -/
theorem C6_percentile_round_counterexample :
    percentileFn [0, 10] (19/20) ≠
      some ((List.insertionSort (· ≤ ·) [(0 : ℚ), 10]).getD
        (round ((19/20 : ℚ) * ((([(0 : ℚ), 10] : List ℚ).length : ℚ) - 1))).toNat 0) := by
  have hsort : List.insertionSort (· ≤ ·) [(0 : ℚ), 10] = [0, 10] := by
    norm_num [List.insertionSort, List.orderedInsert]
  have hlhs : percentileFn [0, 10] (19/20) = some 0 := by
    simp only [percentileFn]
    rw [if_neg (by simp : ¬([(0 : ℚ), 10] = []))]
    rw [hsort]
    norm_num [pyTrunc, pyMaxI, pyMinI]
  have hrhs : (round ((19/20 : ℚ) * ((([(0 : ℚ), 10] : List ℚ).length : ℚ) - 1))).toNat
      = 1 := by
    norm_num [round_eq]
  rw [hlhs, hrhs, hsort]
  norm_num

/-- C6 (amended): for every nonempty sample list and quantile `q ∈ [0, 1]`,
the percentile query sorts on read and returns the element at the truncated
index `int(q * (n - 1))` = `⌊q * (n - 1)⌋` (not the rounded nearest rank),
the clamp leaving that index unchanged; the result is an element of the
samples (no interpolation). -/
theorem C6_percentile_truncated_amended (values : List ℚ) (q : ℚ)
    (hne : values ≠ []) (hq0 : 0 ≤ q) (hq1 : q ≤ 1) :
    List.Sorted (· ≤ ·) (List.insertionSort (· ≤ ·) values) ∧
    (List.insertionSort (· ≤ ·) values).Perm values ∧
    (⌊q * ((values.length : ℚ) - 1)⌋).toNat < values.length ∧
    percentileFn values q =
      some ((List.insertionSort (· ≤ ·) values).getD
        (⌊q * ((values.length : ℚ) - 1)⌋).toNat 0) ∧
    ∃ r, percentileFn values q = some r ∧ r ∈ values := by
  have hlen1 : 1 ≤ values.length := by
    cases values with
    | nil => exact absurd rfl hne
    | cons x xs => simp
  have hc0 : (0 : ℚ) ≤ (values.length : ℚ) - 1 := by
    have : (1 : ℚ) ≤ (values.length : ℚ) := by exact_mod_cast hlen1
    linarith
  have hx0 : 0 ≤ q * ((values.length : ℚ) - 1) := mul_nonneg hq0 hc0
  have hx1 : q * ((values.length : ℚ) - 1) ≤ (values.length : ℚ) - 1 :=
    mul_le_of_le_one_left hc0 hq1
  have hfl0 : 0 ≤ ⌊q * ((values.length : ℚ) - 1)⌋ := Int.floor_nonneg.mpr hx0
  have hfl1 : ⌊q * ((values.length : ℚ) - 1)⌋ ≤ (values.length : Int) - 1 := by
    have h2 : ((values.length : Int) - 1 : Int) = ⌊((values.length : ℚ) - 1)⌋ := by
      rw [show ((values.length : ℚ) - 1) = (((values.length : Int) - 1 : Int) : ℚ) by
        push_cast; ring]
      rw [Int.floor_intCast]
    rw [h2]
    exact Int.floor_le_floor hx1
  have hidx : (⌊q * ((values.length : ℚ) - 1)⌋).toNat < values.length := by omega
  have heq : percentileFn values q =
      some ((List.insertionSort (· ≤ ·) values).getD
        (⌊q * ((values.length : ℚ) - 1)⌋).toNat 0) := by
    simp only [percentileFn]
    rw [if_neg hne]
    rw [List.length_insertionSort]
    rw [show pyTrunc (q * ((values.length : ℚ) - 1)) =
      ⌊q * ((values.length : ℚ) - 1)⌋ by rw [pyTrunc, if_pos hx0]]
    rw [show pyMinI ⌊q * ((values.length : ℚ) - 1)⌋ ((values.length : Int) - 1) =
      ⌊q * ((values.length : ℚ) - 1)⌋ by rw [pyMinI, if_pos hfl1]]
    rw [show pyMaxI 0 ⌊q * ((values.length : ℚ) - 1)⌋ =
      ⌊q * ((values.length : ℚ) - 1)⌋ by rw [pyMaxI, if_pos hfl0]]
  refine ⟨List.sorted_insertionSort (· ≤ ·) values,
    List.perm_insertionSort (· ≤ ·) values, hidx, heq, ?_⟩
  refine ⟨(List.insertionSort (· ≤ ·) values).getD
    (⌊q * ((values.length : ℚ) - 1)⌋).toNat 0, heq, ?_⟩
  have hlen2 : (⌊q * ((values.length : ℚ) - 1)⌋).toNat <
      (List.insertionSort (· ≤ ·) values).length := by
    rw [List.length_insertionSort]
    exact hidx
  rw [List.getD_eq_getElem _ 0 hlen2]
  exact (List.perm_insertionSort (· ≤ ·) values).mem_iff.mp (List.getElem_mem hlen2)

/-- Witness for C6 at concrete samples: the median query on `[5, 1, 9]`
returns the middle element 5. -/
theorem C6_percentile_truncated_witness : percentileFn [5, 1, 9] (1/2) = some 5 := by
  have h := (C6_percentile_truncated_amended [5, 1, 9] (1/2) (by simp)
    (by norm_num) (by norm_num)).2.2.2.1
  rw [h]
  have hsort : List.insertionSort (· ≤ ·) [(5 : ℚ), 1, 9] = [1, 5, 9] := by
    norm_num [List.insertionSort, List.orderedInsert]
  rw [hsort]
  norm_num

/-! ## Lemmas about the metrics buffers -/

theorem recordLatencyMs_length (buf : List ℚ) (ms : ℚ) :
    (recordLatencyMs buf ms).length =
      if 2000 < buf.length + 1 then 1000 else buf.length + 1 := by
  simp only [recordLatencyMs, List.length_append, List.length_cons, List.length_nil]
  split_ifs with h
  · simp only [List.length_drop, List.length_append, List.length_cons, List.length_nil]
    omega
  · simp

theorem foldl_recordLatency_bounded : ∀ (xs : List ℚ) (acc : List ℚ),
    acc.length ≤ 2000 → (xs.foldl recordLatencyMs acc).length ≤ 2000 := by
  intro xs
  induction xs with
  | nil => intro acc h; simpa using h
  | cons x rest ih =>
    intro acc h
    simp only [List.foldl_cons]
    apply ih
    rw [recordLatencyMs_length]
    split_ifs with h2 <;> omega

/-- C7: each metrics-buffer insertion appends the sample; whenever the length
then exceeds the capacity 2000, the buffer is cut down to its newest 1000
entries (half the capacity), discarding the oldest ones — the retained buffer
is a suffix of the appended buffer; consequently the buffer length never
exceeds 2000 when starting from an empty buffer, and the paired
score/timestamp buffers of `_record_emotion_top1` stay aligned. -/
theorem recordEmotionTop1_eq (scores times : List ℚ) (sc t : ℚ) :
    recordEmotionTop1 scores times sc t =
      if 2000 < (scores ++ [sc]).length then
        ((scores ++ [sc]).drop ((scores ++ [sc]).length - 1000),
          (times ++ [t]).drop ((times ++ [t]).length - 1000))
      else (scores ++ [sc], times ++ [t]) := rfl

theorem C7_metrics_buffer_bounded (buf scores times : List ℚ) (ms sc t : ℚ) :
    ((recordLatencyMs buf ms).length =
      if 2000 < buf.length + 1 then 1000 else buf.length + 1) ∧
    recordLatencyMs buf ms <:+ buf ++ [ms] ∧
    (buf.length ≤ 2000 → (recordLatencyMs buf ms).length ≤ 2000) ∧
    (∀ xs : List ℚ, (xs.foldl recordLatencyMs []).length ≤ 2000) ∧
    ((recordEmotionTop1 scores times sc t).1.length =
      if 2000 < scores.length + 1 then 1000 else scores.length + 1) ∧
    (recordEmotionTop1 scores times sc t).1 <:+ scores ++ [sc] ∧
    (recordEmotionTop1 scores times sc t).2 <:+ times ++ [t] ∧
    (scores.length = times.length →
      (recordEmotionTop1 scores times sc t).1.length =
        (recordEmotionTop1 scores times sc t).2.length) := by
  refine ⟨recordLatencyMs_length buf ms, ?_, ?_, ?_, ?_, ?_, ?_, ?_⟩
  · simp only [recordLatencyMs]
    split_ifs with h
    · exact List.drop_suffix _ _
    · exact List.suffix_refl _
  · intro h
    rw [recordLatencyMs_length]
    split_ifs with h2 <;> omega
  · intro xs
    exact foldl_recordLatency_bounded xs [] (by simp)
  · rw [recordEmotionTop1_eq]
    simp only [List.length_append, List.length_cons, List.length_nil]
    split_ifs with h
    · simp only [List.length_drop, List.length_append, List.length_cons, List.length_nil]
      omega
    · simp
  · rw [recordEmotionTop1_eq]
    split_ifs with h
    · exact List.drop_suffix _ _
    · exact List.suffix_refl _
  · rw [recordEmotionTop1_eq]
    split_ifs with h
    · exact List.drop_suffix _ _
    · exact List.suffix_refl _
  · intro hlen
    rw [recordEmotionTop1_eq]
    split_ifs with h
    · simp only [List.length_drop, List.length_append, List.length_cons, List.length_nil]
      omega
    · simp [hlen]

/-- Witness for C7 at a concrete buffer: a single-sample buffer stays bounded,
and aligned emotion buffers stay aligned. -/
theorem C7_metrics_buffer_bounded_witness :
    (recordLatencyMs [1] 2).length ≤ 2000 ∧
    ((recordEmotionTop1 [1] [3] 2 4).1.length = (recordEmotionTop1 [1] [3] 2 4).2.length) :=
  ⟨(C7_metrics_buffer_bounded [1] [] [] 2 0 0).2.2.1 (by simp),
    (C7_metrics_buffer_bounded [] [1] [3] 0 2 4).2.2.2.2.2.2.2 rfl⟩

/-! ## Lemmas about the analyze handlers -/

/-- Replacing the user-store update by an always-failing one turns the
per-text result into the same response with the `user` field cleared; it
never changes success into failure. -/
theorem analyzeCore_update_err {υ : Type} (deps : AnalyzeDeps υ)
    (f1 f2 : String → Option String → String → String → (ℚ × ℚ × ℚ) → (ℚ × String) →
      List (String × ℚ) → Except String υ)
    (text : String) (userid username : Option String)
    (hf : ∀ uid un tx lb vad st em, ∃ e, f1 uid un tx lb vad st em = .error e) :
    analyzeCore { deps with updateUser := f1 } text userid username =
      Except.map (fun r => { r with user := none })
        (analyzeCore { deps with updateUser := f2 } text userid username) := by
  simp only [analyzeCore]
  cases hb : deps.getBackend text with
  | error e => rfl
  | ok pr =>
    obtain ⟨sentiment, pairs⟩ := pr
    simp only [Except.map]
    by_cases hu : pyStrip (userid.getD "") = ""
    · simp [hu]
    · obtain ⟨e, he⟩ := hf (pyStrip (userid.getD ""))
        (if pyStrip (username.getD "") = "" then none else some (pyStrip (username.getD "")))
        text sentiment.label
        (deps.vadOf (applyMinScoreFilter deps.minScore
          (if deps.useAlias then deps.canonicalize pairs else pairs)))
        (deps.stressOf
          (deps.vadOf (applyMinScoreFilter deps.minScore
            (if deps.useAlias then deps.canonicalize pairs else pairs))).1
          (deps.vadOf (applyMinScoreFilter deps.minScore
            (if deps.useAlias then deps.canonicalize pairs else pairs))).2.1
          (applyMinScoreFilter deps.minScore
            (if deps.useAlias then deps.canonicalize pairs else pairs)))
        (applyMinScoreFilter deps.minScore
          (if deps.useAlias then deps.canonicalize pairs else pairs))
      simp [hu, he]

/-- The batch loop under an always-failing user-store update: same items, each
with the `user` field cleared, and the same error behaviour. -/
theorem batchGo_update_err {υ : Type} (deps : AnalyzeDeps υ)
    (f1 f2 : String → Option String → String → String → (ℚ × ℚ × ℚ) → (ℚ × String) →
      List (String × ℚ) → Except String υ)
    (userid username : Option String)
    (hf : ∀ uid un tx lb vad st em, ∃ e, f1 uid un tx lb vad st em = .error e) :
    ∀ ts : List String,
      batchGo { deps with updateUser := f1 } userid username ts =
        Except.map (List.map (fun r => { r with user := none }))
          (batchGo { deps with updateUser := f2 } userid username ts) := by
  intro ts
  induction ts with
  | nil => rfl
  | cons t rest ih =>
    simp only [batchGo]
    rw [analyzeCore_update_err deps f1 f2 t userid username hf]
    cases hc : analyzeCore { deps with updateUser := f2 } t userid username with
    | error c => rfl
    | ok r =>
      simp only [Except.map]
      rw [ih]
      cases batchGo { deps with updateUser := f2 } userid username rest with
      | error c => rfl
      | ok rs => rfl

/-- C8: a failure of the per-user state update never fails the analyze
response: with an always-failing user store the `analyze` handler returns
exactly what it would return with any working store, except that the `user`
field is cleared — the computed sentiment, emotions, VAD, PAD and stress
fields are unchanged; the same holds item-wise for `analyze_batch`. -/
theorem C8_user_update_best_effort {υ : Type} (deps : AnalyzeDeps υ)
    (f1 f2 : String → Option String → String → String → (ℚ × ℚ × ℚ) → (ℚ × String) →
      List (String × ℚ) → Except String υ)
    (text : Option String) (texts : List (Option String))
    (userid username : Option String)
    (hf : ∀ uid un tx lb vad st em, ∃ e, f1 uid un tx lb vad st em = .error e) :
    (analyzeHandler { deps with updateUser := f1 } text userid username =
      Except.map (fun r => { r with user := none })
        (analyzeHandler { deps with updateUser := f2 } text userid username)) ∧
    (∀ res, analyzeHandler { deps with updateUser := f2 } text userid username = .ok res →
      analyzeHandler { deps with updateUser := f1 } text userid username =
        .ok { res with user := none }) ∧
    (analyzeBatchHandler { deps with updateUser := f1 } texts userid username =
      Except.map (List.map (fun r => { r with user := none }))
        (analyzeBatchHandler { deps with updateUser := f2 } texts userid username)) := by
  have hh : analyzeHandler { deps with updateUser := f1 } text userid username =
      Except.map (fun r => { r with user := none })
        (analyzeHandler { deps with updateUser := f2 } text userid username) := by
    simp only [analyzeHandler]
    split_ifs with ht
    · rfl
    · exact analyzeCore_update_err deps f1 f2 _ userid username hf
  refine ⟨hh, ?_, ?_⟩
  · intro res hres
    rw [hh, hres]
    rfl
  · simp only [analyzeBatchHandler]
    split_ifs with ht
    · rfl
    · exact batchGo_update_err deps f1 f2 userid username hf _

/-- Witness for C8 at concrete collaborators: a backend returning a fixed
sentiment and emotion distribution, a store that always raises, and a store
that returns user state 7 — the failing-store response equals the working
response with the user field cleared. -/
theorem C8_user_update_best_effort_witness :
    analyzeHandler
        (⟨fun _ => .ok (⟨"positive", [("positive", 1)], "m"⟩, [("joy", 1)]),
          false, id, 0, fun _ => (0, 0, 0), fun _ _ _ => (0, "low"),
          fun _ _ _ _ _ _ _ => .error "disk full"⟩ : AnalyzeDeps Nat)
        (some "hi") (some "u") none =
      Except.map (fun r => { r with user := none })
        (analyzeHandler
          (⟨fun _ => .ok (⟨"positive", [("positive", 1)], "m"⟩, [("joy", 1)]),
            false, id, 0, fun _ => (0, 0, 0), fun _ _ _ => (0, "low"),
            fun _ _ _ _ _ _ _ => .ok 7⟩ : AnalyzeDeps Nat)
          (some "hi") (some "u") none) :=
  (C8_user_update_best_effort
    (⟨fun _ => .ok (⟨"positive", [("positive", 1)], "m"⟩, [("joy", 1)]),
      false, id, 0, fun _ => (0, 0, 0), fun _ _ _ => (0, "low"),
      fun _ _ _ _ _ _ _ => .ok 7⟩ : AnalyzeDeps Nat)
    (fun _ _ _ _ _ _ _ => .error "disk full") (fun _ _ _ _ _ _ _ => .ok 7)
    (some "hi") [] (some "u") none
    (fun _ _ _ _ _ _ _ => ⟨"disk full", rfl⟩)).1

/-- C9: a batch request whose `texts` contain no non-empty entry (after
stripping; including the empty list) fails with HTTP 400 — for every choice
of collaborators, so no backend (local or external) is ever consulted. -/
theorem C9_batch_empty_texts_400 {υ : Type} (deps : AnalyzeDeps υ)
    (texts : List (Option String)) (userid username : Option String)
    (h : ∀ t ∈ texts, pyStrip (t.getD "") = "") :
    analyzeBatchHandler deps texts userid username = .error 400 := by
  simp only [analyzeBatchHandler]
  have hnil : (texts.map (fun t => pyStrip (t.getD ""))).filter (fun t => t ≠ "") = [] := by
    rw [List.filter_eq_nil_iff]
    intro a ha
    simp only [List.mem_map] at ha
    obtain ⟨t, ht, hta⟩ := ha
    rw [← hta]
    simp [h t ht]
  rw [hnil]
  rfl

/-- Witness for C9: a batch of one whitespace-only entry, one missing entry
and one empty string is rejected with 400 under arbitrary concrete
collaborators. -/
theorem C9_batch_empty_texts_400_witness :
    analyzeBatchHandler
        (⟨fun _ => .ok (⟨"positive", [("positive", 1)], "m"⟩, [("joy", 1)]),
          false, id, 0, fun _ => (0, 0, 0), fun _ _ _ => (0, "low"),
          fun _ _ _ _ _ _ _ => .ok 7⟩ : AnalyzeDeps Nat)
        [some "   ", none, some ""] none none = .error 400 :=
  C9_batch_empty_texts_400 _ [some "   ", none, some ""] none none (by decide)

/-- C10: the `analyze` handler strips the text before validation — a text
that strips to the empty string (whitespace-only or empty) is rejected with
HTTP 400 no matter the collaborators; an accepted request is handled by
running the per-text body on the stripped text; and the result depends on
the backend only through its value at the stripped text, so the backend
receives the stripped text rather than the original. -/
theorem C10_analyze_strips_text {υ : Type} (deps deps2 : AnalyzeDeps υ)
    (text : Option String) (userid username : Option String) :
    (pyStrip (text.getD "") = "" →
      analyzeHandler deps text userid username = .error 400) ∧
    (pyStrip (text.getD "") ≠ "" →
      analyzeHandler deps text userid username =
        analyzeCore deps (pyStrip (text.getD "")) userid username) ∧
    (deps2.useAlias = deps.useAlias → deps2.canonicalize = deps.canonicalize →
      deps2.minScore = deps.minScore → deps2.vadOf = deps.vadOf →
      deps2.stressOf = deps.stressOf → deps2.updateUser = deps.updateUser →
      deps2.getBackend (pyStrip (text.getD "")) = deps.getBackend (pyStrip (text.getD "")) →
      analyzeHandler deps2 text userid username =
        analyzeHandler deps text userid username) := by
  refine ⟨?_, ?_, ?_⟩
  · intro ht
    simp only [analyzeHandler]
    rw [if_pos ht]
  · intro ht
    simp only [analyzeHandler]
    rw [if_neg ht]
  · intro h1 h2 h3 h4 h5 h6 hgb
    by_cases ht : pyStrip (text.getD "") = ""
    · simp only [analyzeHandler]
      rw [if_pos ht, if_pos ht]
    · simp only [analyzeHandler]
      rw [if_neg ht, if_neg ht]
      simp only [analyzeCore]
      rw [hgb, h1, h2, h3, h4, h5, h6]

/-- Witness for C10: a whitespace-only text is rejected with 400, and an
accepted text is processed as its stripped form. -/
theorem C10_analyze_strips_text_witness :
    analyzeHandler
        (⟨fun _ => .ok (⟨"positive", [("positive", 1)], "m"⟩, [("joy", 1)]),
          false, id, 0, fun _ => (0, 0, 0), fun _ _ _ => (0, "low"),
          fun _ _ _ _ _ _ _ => .ok 7⟩ : AnalyzeDeps Nat)
        (some "  \t ") none none = .error 400 ∧
    analyzeHandler
        (⟨fun _ => .ok (⟨"positive", [("positive", 1)], "m"⟩, [("joy", 1)]),
          false, id, 0, fun _ => (0, 0, 0), fun _ _ _ => (0, "low"),
          fun _ _ _ _ _ _ _ => .ok 7⟩ : AnalyzeDeps Nat)
        (some " hi ") none none =
      analyzeCore
        (⟨fun _ => .ok (⟨"positive", [("positive", 1)], "m"⟩, [("joy", 1)]),
          false, id, 0, fun _ => (0, 0, 0), fun _ _ _ => (0, "low"),
          fun _ _ _ _ _ _ _ => .ok 7⟩ : AnalyzeDeps Nat)
        (pyStrip " hi ") none none :=
  ⟨(C10_analyze_strips_text
      (⟨fun _ => .ok (⟨"positive", [("positive", 1)], "m"⟩, [("joy", 1)]),
        false, id, 0, fun _ => (0, 0, 0), fun _ _ _ => (0, "low"),
        fun _ _ _ _ _ _ _ => .ok 7⟩ : AnalyzeDeps Nat)
      (⟨fun _ => .ok (⟨"positive", [("positive", 1)], "m"⟩, [("joy", 1)]),
        false, id, 0, fun _ => (0, 0, 0), fun _ _ _ => (0, "low"),
        fun _ _ _ _ _ _ _ => .ok 7⟩ : AnalyzeDeps Nat)
      (some "  \t ") none none).1 (by decide),
    (C10_analyze_strips_text
      (⟨fun _ => .ok (⟨"positive", [("positive", 1)], "m"⟩, [("joy", 1)]),
        false, id, 0, fun _ => (0, 0, 0), fun _ _ _ => (0, "low"),
        fun _ _ _ _ _ _ _ => .ok 7⟩ : AnalyzeDeps Nat)
      (⟨fun _ => .ok (⟨"positive", [("positive", 1)], "m"⟩, [("joy", 1)]),
        false, id, 0, fun _ => (0, 0, 0), fun _ _ _ => (0, "low"),
        fun _ _ _ _ _ _ _ => .ok 7⟩ : AnalyzeDeps Nat)
      (some " hi ") none none).2.1 (by decide)⟩
